import Mathlib

/-!
Verification of the APORT radix-tree container (`src/include/aport/aport.h`).

The development shallowly embeds the header's data model and algorithms:

* keys and node prefixes are `List Char` (the C++ walks `c_str()` buffers);
* `node` mirrors `tree<T>::node`, with children as an association list from
  the first character to the child (modelling `unordered_map<char,
  unique_ptr<node>>`: a lookup finds the unique entry, `map[c] = v` replaces
  the entry or appends a fresh one), plus a numeric `id` modelling the node's
  heap address, which the tracking index keys on;
* `tree` mirrors `tree<T>`: the owned root, the `Length` counter (a `size_t`,
  so arithmetic is modulo `2 ^ 64`), the tracking list `Nodes` of
  `(key, node id)` pairs in most-recently-touched-first order, and the fresh
  address counter standing in for the allocator.  `NodeToNodesIterator` is
  represented by the position of an id inside the tracking list.

Every operation (`compare_prefixes` in both template instantiations,
`insert`, `erase`, `contains`, `get`, `operator[]`, `clear`, `length`,
iteration, and the copy constructor) is translated from the source.
-/

namespace aport

/-- `tree<T>::node::comparison_result`. -/
inductive comparison_result : Type where
  | no_match : comparison_result
  | prefix_full_match : comparison_result
  | partial_match : comparison_result
  | exact_match : comparison_result
deriving DecidableEq, Repr

/-- The character-matching loop of `compare_prefixes<true>`: how many leading
characters of the two buffers agree (the loop stops at the first mismatch or
at `min` of the lengths, whichever comes first). -/
def matchedCount : List Char → List Char → Nat
  | p :: ps, s :: ss => if p = s then matchedCount ps ss + 1 else 0
  | _, _ => 0

/-- `node::compare_prefixes<UseRadix>(String, StringLength)` applied to this
node's prefix `pre` and the remaining key suffix `s`.  `useRadix = true` is
the character-by-character branch; `useRadix = false` is the optimistic
(length-only) branch. -/
def comparePrefixes (useRadix : Bool) (pre s : List Char) :
    comparison_result × Nat :=
  if useRadix then
    let m := matchedCount pre s
    if pre.length = m then
      if s.length = m then (.exact_match, m) else (.prefix_full_match, m)
    else if m = 0 then (.no_match, 0)
    else (.partial_match, m)
  else
    if pre.length < s.length then (.prefix_full_match, pre.length)
    else if pre.length = s.length then (.exact_match, pre.length)
    else (.no_match, 0)

theorem matchedCount_le_left (p s : List Char) : matchedCount p s ≤ p.length := by
  induction p generalizing s with
  | nil => simp [matchedCount]
  | cons a p ih =>
    cases s with
    | nil => simp [matchedCount]
    | cons b s =>
      by_cases h : a = b <;> simp [matchedCount, h]
      exact ih s

theorem matchedCount_le_right (p s : List Char) : matchedCount p s ≤ s.length := by
  induction p generalizing s with
  | nil => simp [matchedCount]
  | cons a p ih =>
    cases s with
    | nil => simp [matchedCount]
    | cons b s =>
      by_cases h : a = b <;> simp [matchedCount, h]
      exact ih s

theorem matchedCount_self (p : List Char) : matchedCount p p = p.length := by
  induction p with
  | nil => simp [matchedCount]
  | cons a p ih => simp [matchedCount, ih]

/-- The matched characters agree: both strings have the same first
`matchedCount` characters. -/
theorem matchedCount_take (p s : List Char) :
    p.take (matchedCount p s) = s.take (matchedCount p s) := by
  induction p generalizing s with
  | nil => simp [matchedCount]
  | cons a p ih =>
    cases s with
    | nil => simp [matchedCount]
    | cons b s =>
      by_cases h : a = b <;> simp [matchedCount, h]
      exact ih s

/-- Maximality: right after the matched run the two strings differ. -/
theorem matchedCount_ne (p s : List Char)
    (hp : matchedCount p s < p.length) (hs : matchedCount p s < s.length) :
    (p.drop (matchedCount p s)).headI ≠ (s.drop (matchedCount p s)).headI := by
  induction p generalizing s with
  | nil => simp [matchedCount] at hp
  | cons a p ih =>
    cases s with
    | nil => simp [matchedCount] at hs
    | cons b s =>
      by_cases h : a = b
      · simp only [matchedCount, if_pos h, List.length_cons, Nat.add_lt_add_iff_right,
          List.drop_succ_cons] at hp hs ⊢
        exact ih s hp hs
      · simp [matchedCount, h]

/-- Both full prefixes agree below the matched count. -/
theorem matchedCount_take_of_le (p s : List Char) (k : Nat)
    (hk : k ≤ matchedCount p s) : p.take k = s.take k := by
  have h := matchedCount_take p s
  calc p.take k = (p.take (matchedCount p s)).take k := by
        rw [List.take_take, Nat.min_eq_left hk]
    _ = (s.take (matchedCount p s)).take k := by rw [h]
    _ = s.take k := by rw [List.take_take, Nat.min_eq_left hk]

/-- Two strings that agree on the first `k` characters match for at least
`k` characters. -/
theorem le_matchedCount_of_take (p s : List Char) (k : Nat)
    (hp : k ≤ p.length) (hs : k ≤ s.length) (h : p.take k = s.take k) :
    k ≤ matchedCount p s := by
  induction k generalizing p s with
  | zero => exact Nat.zero_le _
  | succ n ih =>
    cases p with
    | nil => simp at hp
    | cons a p =>
      cases s with
      | nil => simp at hs
      | cons b s =>
        simp only [List.take_succ_cons, List.cons.injEq] at h
        simp only [List.length_cons, Nat.succ_le_succ_iff] at hp hs
        simp only [matchedCount, if_pos h.1]
        exact Nat.succ_le_succ (ih p s hp hs h.2)

/-- Matching a truncated left string caps the count at the truncation. -/
theorem matchedCount_take_left (p s : List Char) (k : Nat) :
    matchedCount (p.take k) s = min (matchedCount p s) k := by
  induction p generalizing s k with
  | nil => simp [matchedCount]
  | cons a p ih =>
    cases k with
    | zero => simp [matchedCount]
    | succ n =>
      cases s with
      | nil => simp [matchedCount]
      | cons b s =>
        by_cases h : a = b
        · simp [matchedCount, h, ih s n, Nat.succ_min_succ]
        · simp [matchedCount, h]

/-- Dropping the same agreed-upon run from both strings subtracts it from
the count. -/
theorem matchedCount_drop (p s : List Char) (k : Nat)
    (hk : k ≤ matchedCount p s) :
    matchedCount (p.drop k) (s.drop k) = matchedCount p s - k := by
  induction k generalizing p s with
  | zero => simp
  | succ n ih =>
    cases p with
    | nil => simp [matchedCount] at hk
    | cons a p =>
      cases s with
      | nil => simp [matchedCount] at hk
      | cons b s =>
        by_cases h : a = b
        · simp only [matchedCount, if_pos h] at hk ⊢
          simp only [List.drop_succ_cons]
          rw [ih p s (Nat.le_of_succ_le_succ hk)]
          omega
        · simp [matchedCount, h] at hk

/-- If the full match count equals both lengths the strings are equal. -/
theorem eq_of_matchedCount (p s : List Char)
    (hp : matchedCount p s = p.length) (hs : matchedCount p s = s.length) :
    p = s := by
  have h := matchedCount_take p s
  rw [hp, List.take_length] at h
  have hlen : p.length = s.length := by rw [← hp, hs]
  rw [h, hlen, List.take_length]

/-- `tree<T>::node`: an optional payload (`Data`), the prefix segment this
node contributes (`Prefix`), and the children map (`FirstCharToNode`),
keyed by the first character of each child's prefix.  `id` models the
node's heap address (the copy constructor and the tracking index
distinguish nodes by address). -/
inductive node (T : Type) : Type where
  | mk (data : Option T) (pre : List Char) (children : List (Char × node T))
      (id : Nat) : node T

/-- `Data` field. -/
def node.data {T : Type} : node T → Option T
  | .mk d _ _ _ => d

/-- `Prefix` field. -/
def node.pre {T : Type} : node T → List Char
  | .mk _ p _ _ => p

/-- `FirstCharToNode` field. -/
def node.children {T : Type} : node T → List (Char × node T)
  | .mk _ _ c _ => c

/-- The modelled heap address. -/
def node.id {T : Type} : node T → Nat
  | .mk _ _ _ i => i

@[simp] theorem node.data_mk {T : Type} (d : Option T) (p : List Char)
    (c : List (Char × node T)) (i : Nat) : (node.mk d p c i).data = d := rfl

@[simp] theorem node.pre_mk {T : Type} (d : Option T) (p : List Char)
    (c : List (Char × node T)) (i : Nat) : (node.mk d p c i).pre = p := rfl

@[simp] theorem node.children_mk {T : Type} (d : Option T) (p : List Char)
    (c : List (Char × node T)) (i : Nat) : (node.mk d p c i).children = c := rfl

@[simp] theorem node.id_mk {T : Type} (d : Option T) (p : List Char)
    (c : List (Char × node T)) (i : Nat) : (node.mk d p c i).id = i := rfl

variable {T : Type}

/-- `FirstCharToNode.contains(c)` / reading `FirstCharToNode[c]`: the entry
whose key is `c` (the C++ map holds at most one). -/
def lookupChild (c : Char) : List (Char × node T) → Option (node T)
  | [] => none
  | (c', n) :: rest => if c' = c then some n else lookupChild c rest

/-- `FirstCharToNode[c] = n` as an assignment: replace the entry at key `c`,
or add a fresh one when the key is absent. -/
def setChild (c : Char) (n : node T) : List (Char × node T) → List (Char × node T)
  | [] => [(c, n)]
  | (c', n') :: rest =>
    if c' = c then (c, n) :: rest else (c', n') :: setChild c n rest

/-- `FirstCharToNode.erase(c)`: drop the entry at key `c`. -/
def removeChild (c : Char) : List (Char × node T) → List (Char × node T)
  | [] => []
  | (c', n') :: rest =>
    if c' = c then rest else (c', n') :: removeChild c rest

@[simp] theorem lookupChild_nil (c : Char) : lookupChild c ([] : List (Char × node T)) = none := rfl

@[simp] theorem lookupChild_setChild_self (c : Char) (n : node T)
    (cs : List (Char × node T)) : lookupChild c (setChild c n cs) = some n := by
  induction cs with
  | nil => simp [setChild, lookupChild]
  | cons p rest ih =>
    obtain ⟨c', n'⟩ := p
    by_cases h : c' = c <;> simp [setChild, lookupChild, h, ih]

@[simp] theorem lookupChild_setChild_ne (c c' : Char) (hne : c' ≠ c) (n : node T)
    (cs : List (Char × node T)) :
    lookupChild c (setChild c' n cs) = lookupChild c cs := by
  induction cs with
  | nil => simp [setChild, lookupChild, hne]
  | cons p rest ih =>
    obtain ⟨c'', n''⟩ := p
    by_cases h : c'' = c'
    · subst h
      simp [setChild, lookupChild, hne]
    · by_cases h2 : c'' = c <;> simp [setChild, lookupChild, h, h2, ih, Ne.symm hne]

@[simp] theorem lookupChild_removeChild_ne (c c' : Char) (hne : c' ≠ c)
    (cs : List (Char × node T)) :
    lookupChild c (removeChild c' cs) = lookupChild c cs := by
  induction cs with
  | nil => simp [removeChild]
  | cons p rest ih =>
    obtain ⟨c'', n''⟩ := p
    by_cases h : c'' = c'
    · subst h
      simp [removeChild, lookupChild, hne]
    · by_cases h2 : c'' = c <;> simp [removeChild, lookupChild, h, h2, ih, Ne.symm hne]

theorem lookupChild_mem {c : Char} {cs : List (Char × node T)} {n : node T}
    (h : lookupChild c cs = some n) : (c, n) ∈ cs := by
  induction cs with
  | nil => simp [lookupChild] at h
  | cons p rest ih =>
    obtain ⟨c', n'⟩ := p
    by_cases hc : c' = c
    · subst hc
      simp [lookupChild] at h
      simp [h]
    · simp [lookupChild, hc] at h
      exact List.mem_cons_of_mem _ (ih h)

theorem sizeOf_lookupChild {c : Char} {cs : List (Char × node T)} {n : node T}
    (h : lookupChild c cs = some n) : sizeOf n < sizeOf cs := by
  have hm := lookupChild_mem h
  have h1 : sizeOf (c, n) ≤ sizeOf cs := le_of_lt (List.sizeOf_lt_of_mem hm)
  simp only [Prod.mk.sizeOf_spec] at h1
  omega

/-- The traversal loop of `tree<T>::get` below the tree wrapper: starting at
a node with the remaining key suffix `s`, resolve the suffix and return the
resident data, or `none` where the C++ throws `no_such_key`.  The comparison
runs `compare_prefixes<AportRadixMode>`, so `useRadix` is the build-time
flag. -/
def getAux (useRadix : Bool) : node T → List Char → Option T
  | .mk data pre children _, s =>
    match comparePrefixes useRadix pre s with
    | (.no_match, _) => none
    | (.partial_match, _) => none
    | (.exact_match, _) => data
    | (.prefix_full_match, m) =>
      match h : lookupChild ((s.drop m).headI) children with
      | some child => getAux useRadix child (s.drop m)
      | none => none
termination_by n _ => sizeOf n
decreasing_by
  have := sizeOf_lookupChild h
  simp only [node.mk.sizeOf_spec]
  omega

/-- The traversal loop of `tree<T>::contains` (always radix mode):
`true` exactly on an `exact_match` whose node holds data. -/
def containsAux : node T → List Char → Bool
  | .mk data pre children _, s =>
    match comparePrefixes true pre s with
    | (.no_match, _) => false
    | (.partial_match, _) => false
    | (.exact_match, _) => data.isSome
    | (.prefix_full_match, m) =>
      match h : lookupChild ((s.drop m).headI) children with
      | some child => containsAux child (s.drop m)
      | none => false
termination_by n _ => sizeOf n
decreasing_by
  have := sizeOf_lookupChild h
  simp only [node.mk.sizeOf_spec]
  omega

/-- What a call of `tree<T>::insert` does below the tree wrapper: the new
subtree replacing the current node, the id handed to `track` (`none` only on
the `PATH_UNREACHABLE` branch), whether `Length` was incremented, and the
advanced allocation counter. -/
structure insRes (T : Type) : Type where
  n : node T
  tracked : Option Nat
  inc : Bool
  next : Nat

/-- The traversal loop of `tree<T>::insert(Key, Value)`.  `key` is the full
key (passed to `track`), `s` the remaining suffix at the current node and
`fresh` the next unused id (modelling `make_unique` allocation; the
intermediate node of a split is allocated before the new leaf).  The
`no_match` arm is `PATH_UNREACHABLE()` in the source; it is modelled as a
no-op and is proved unreachable from well-formed trees. -/
def insertAux (key : List Char) (v : T) : node T → List Char → Nat → insRes T
  | .mk data pre children id, s, fresh =>
    match comparePrefixes true pre s with
    | (.no_match, _) => ⟨.mk data pre children id, none, false, fresh⟩
    | (.exact_match, _) => ⟨.mk (some v) pre children id, some id, data.isNone, fresh⟩
    | (.prefix_full_match, m) =>
      match h : lookupChild ((s.drop m).headI) children with
      | some child =>
        let r := insertAux key v child (s.drop m) fresh
        ⟨.mk data pre (setChild ((s.drop m).headI) r.n children) id,
          r.tracked, r.inc, r.next⟩
      | none =>
        ⟨.mk data pre
            (setChild ((s.drop m).headI) (.mk (some v) (s.drop m) [] fresh) children) id,
          some fresh, true, fresh + 1⟩
    | (.partial_match, m) =>
      -- split: the intermediate node takes the matched slice of the prefix,
      -- the current node (`.mk data (pre.drop m) children id`) is shortened
      -- and reattached under it
      if 0 < (s.drop m).length then
        ⟨.mk none (pre.take m)
            (setChild ((s.drop m).headI) (.mk (some v) (s.drop m) [] (fresh + 1))
              (setChild ((pre.drop m).headI) (.mk data (pre.drop m) children id) []))
            fresh,
          some (fresh + 1), true, fresh + 2⟩
      else
        ⟨.mk (some v) (pre.take m)
            (setChild ((pre.drop m).headI) (.mk data (pre.drop m) children id) []) fresh,
          some fresh, true, fresh + 1⟩
termination_by n _ _ => sizeOf n
decreasing_by
  have := sizeOf_lookupChild h
  simp only [node.mk.sizeOf_spec]
  omega

/-- What `tree<T>::operator[]` does below the tree wrapper: like `insRes`
plus the value the returned reference reads. -/
structure goiRes (T : Type) : Type where
  n : node T
  tracked : Option Nat
  inc : Bool
  next : Nat
  ret : T

/-- The traversal loop of `tree<T>::operator[](Key)` (get-or-insert, always
radix mode): like `insertAux` but a missing value is default-constructed,
an existing one is kept, and the resident value is returned. -/
def goiAux [Inhabited T] (key : List Char) : node T → List Char → Nat → goiRes T
  | .mk data pre children id, s, fresh =>
    match comparePrefixes true pre s with
    | (.no_match, _) => ⟨.mk data pre children id, none, false, fresh, default⟩
    | (.exact_match, _) =>
      -- `if (!(bool) Node->Data) { ++ Length; Node->Data = T(); }` then track
      -- and return the resident value
      if data.isNone then ⟨.mk (some default) pre children id, some id, true, fresh, default⟩
      else ⟨.mk data pre children id, some id, false, fresh, data.getD default⟩
    | (.prefix_full_match, m) =>
      match h : lookupChild ((s.drop m).headI) children with
      | some child =>
        let r := goiAux key child (s.drop m) fresh
        ⟨.mk data pre (setChild ((s.drop m).headI) r.n children) id,
          r.tracked, r.inc, r.next, r.ret⟩
      | none =>
        ⟨.mk data pre
            (setChild ((s.drop m).headI) (.mk (some default) (s.drop m) [] fresh) children)
            id,
          some fresh, true, fresh + 1, default⟩
    | (.partial_match, m) =>
      if 0 < (s.drop m).length then
        ⟨.mk none (pre.take m)
            (setChild ((s.drop m).headI) (.mk (some default) (s.drop m) [] (fresh + 1))
              (setChild ((pre.drop m).headI) (.mk data (pre.drop m) children id) []))
            fresh,
          some (fresh + 1), true, fresh + 2, default⟩
      else
        -- the fresh intermediate node holds no data, so the conditional
        -- default-initialization in the source always fires here
        ⟨.mk (some default) (pre.take m)
            (setChild ((pre.drop m).headI) (.mk data (pre.drop m) children id) []) fresh,
          some fresh, true, fresh + 1, default⟩
termination_by n _ _ => sizeOf n
decreasing_by
  have := sizeOf_lookupChild h
  simp only [node.mk.sizeOf_spec]
  omega

/-- The directive an `erase` frame hands to the frame above, which holds the
map slot of the current node (`Parent` in the source). -/
inductive ersOut (T : Type) : Type where
  | keep (n : node T)
    -- the slot now holds `n` (unchanged node, node with cleared data, or
    -- the single-child merge replacing the node)
  | drop
    -- `Parent->FirstCharToNode.erase(NodeAccessor)`: the slot is removed
  | mergeUp (p' : node T) (merged : node T)
    -- the parent itself merged with its sole remaining child: the
    -- grandparent stores `merged` at `merged.pre.headI` (`Child->Prefix[0]`),
    -- overwriting the parent `p'` standing there

/-- Result of an `erase` frame: the directive plus the id the source passed
to `untrack` (set exactly when `exact_match` was reached, in which case
`-- Length` also runs). -/
structure ersRes (T : Type) : Type where
  out : ersOut T
  touched : Option Nat

/-- The traversal loop of `tree<T>::erase(Key)` for nodes below the root
(the root frame, where `Parent`/`ParentParent` are null, is inlined in the
tree wrapper).  On `exact_match` the source calls `untrack` and clears the
data unconditionally — even when the node holds no data — and afterwards
always decrements `Length`; `touched` records that. -/
def eraseAux : node T → List Char → ersRes T
  | .mk data pre children id, s =>
    match comparePrefixes true pre s with
    | (.no_match, _) => ⟨.keep (.mk data pre children id), none⟩
    | (.partial_match, _) => ⟨.keep (.mk data pre children id), none⟩
    | (.exact_match, _) =>
      -- `size_t NChildren = Node->FirstCharToNode.size();` and the if-chain
      if children.length = 0 then ⟨.drop, some id⟩
      else if children.length = 1 then
        -- single child (`*Node->FirstCharToNode.begin()`): expand the child
        -- with this node's prefix and let it take this node's slot
        match children.head? with
        | some (_, child) =>
          ⟨.keep (.mk child.data (pre ++ child.pre) child.children child.id), some id⟩
        | none => ⟨.drop, some id⟩
      else ⟨.keep (.mk none pre children id), some id⟩
    | (.prefix_full_match, m) =>
      match h : lookupChild ((s.drop m).headI) children with
      | none => ⟨.keep (.mk data pre children id), none⟩
      | some child =>
        let r := eraseAux child (s.drop m)
        match r.out with
        | .keep n' =>
          ⟨.keep (.mk data pre (setChild ((s.drop m).headI) n' children) id), r.touched⟩
        | .drop =>
          -- this node (the `Parent`) may be left data-less with exactly one
          -- child; every `eraseAux` frame has a caller holding its slot, so
          -- `ParentParent` is non-null here and the merge condition is just
          -- `!Parent->Data && Parent->FirstCharToNode.size() == 1`
          if data.isNone ∧ (removeChild ((s.drop m).headI) children).length = 1 then
            match (removeChild ((s.drop m).headI) children).head? with
            | some (_, sole) =>
              ⟨.mergeUp (.mk none pre [] id)
                  (.mk sole.data (pre ++ sole.pre) sole.children sole.id), r.touched⟩
            | none =>
              ⟨.keep (.mk data pre (removeChild ((s.drop m).headI) children) id), r.touched⟩
          else ⟨.keep (.mk data pre (removeChild ((s.drop m).headI) children) id), r.touched⟩
        | .mergeUp p' merged =>
          ⟨.keep (.mk data pre
              (setChild merged.pre.headI merged
                (setChild ((s.drop m).headI) p' children)) id), r.touched⟩
termination_by n _ => sizeOf n
decreasing_by
  have := sizeOf_lookupChild h
  simp only [node.mk.sizeOf_spec]
  omega

mutual

/-- Structural well-formedness of a subtree, maintained by every mutation:
each child sits in the map under the first character of its non-empty
prefix.  (The source maintains it implicitly; the traversals rely on it.) -/
def wfb : node T → Bool
  | .mk _ _ children _ => wfbL children
termination_by n => sizeOf n
decreasing_by
  all_goals simp only [node.mk.sizeOf_spec, List.cons.sizeOf_spec, Prod.mk.sizeOf_spec]
  all_goals omega

/-- `wfb` over a children map; also demands the map keys be pairwise
distinct (an `unordered_map` holds one entry per key). -/
def wfbL : List (Char × node T) → Bool
  | [] => true
  | (c, ch) :: rest =>
    (!ch.pre.isEmpty && ch.pre.headI == c && wfb ch && !(lookupChild c rest).isSome)
      && wfbL rest
termination_by l => sizeOf l
decreasing_by
  all_goals simp only [node.mk.sizeOf_spec, List.cons.sizeOf_spec, Prod.mk.sizeOf_spec]
  all_goals omega

end

mutual

/-- The compaction invariant on a non-root subtree: a node either holds data
or has at least two children, recursively (the root is exempt). -/
def compactB : node T → Bool
  | .mk data _ children _ => (data.isSome || decide (2 ≤ children.length)) && compactL children
termination_by n => sizeOf n
decreasing_by
  all_goals simp only [node.mk.sizeOf_spec, List.cons.sizeOf_spec, Prod.mk.sizeOf_spec]
  all_goals omega

/-- `compactB` over a children map. -/
def compactL : List (Char × node T) → Bool
  | [] => true
  | (_, ch) :: rest => compactB ch && compactL rest
termination_by l => sizeOf l
decreasing_by
  all_goals simp only [node.mk.sizeOf_spec, List.cons.sizeOf_spec, Prod.mk.sizeOf_spec]
  all_goals omega

end

mutual

/-- Every id (modelled heap address) in the subtree is below the bound:
the allocation-counter invariant. -/
def idsLt : node T → Nat → Bool
  | .mk _ _ children id, b => decide (id < b) && idsLtL children b
termination_by n _ => sizeOf n
decreasing_by
  all_goals simp only [node.mk.sizeOf_spec, List.cons.sizeOf_spec, Prod.mk.sizeOf_spec]
  all_goals omega

/-- `idsLt` over a children map. -/
def idsLtL : List (Char × node T) → Nat → Bool
  | [], _ => true
  | (_, ch) :: rest, b => idsLt ch b && idsLtL rest b
termination_by l _ => sizeOf l
decreasing_by
  all_goals simp only [node.mk.sizeOf_spec, List.cons.sizeOf_spec, Prod.mk.sizeOf_spec]
  all_goals omega

end

mutual

/-- Whether some node of the subtree carries the given id. -/
def hasId : node T → Nat → Bool
  | .mk _ _ children id, i => (id == i) || hasIdL children i
termination_by n _ => sizeOf n
decreasing_by
  all_goals simp only [node.mk.sizeOf_spec, List.cons.sizeOf_spec, Prod.mk.sizeOf_spec]
  all_goals omega

/-- `hasId` over a children map. -/
def hasIdL : List (Char × node T) → Nat → Bool
  | [], _ => false
  | (_, ch) :: rest, i => hasId ch i || hasIdL rest i
termination_by l _ => sizeOf l
decreasing_by
  all_goals simp only [node.mk.sizeOf_spec, List.cons.sizeOf_spec, Prod.mk.sizeOf_spec]
  all_goals omega

end

mutual

/-- Dereferencing a tracked id: the data of the node carrying this id (what
`NodeInfo.Node->Data` reads when the iterator is dereferenced). -/
def valueOfId : node T → Nat → Option T
  | .mk data _ children id, i => if id = i then data else valueOfIdL children i
termination_by n _ => sizeOf n
decreasing_by
  all_goals simp only [node.mk.sizeOf_spec, List.cons.sizeOf_spec, Prod.mk.sizeOf_spec]
  all_goals omega

/-- `valueOfId` over a children map. -/
def valueOfIdL : List (Char × node T) → Nat → Option T
  | [], _ => none
  | (_, ch) :: rest, i =>
    match valueOfId ch i with
    | some v => some v
    | none => valueOfIdL rest i
termination_by l _ => sizeOf l
decreasing_by
  all_goals simp only [node.mk.sizeOf_spec, List.cons.sizeOf_spec, Prod.mk.sizeOf_spec]
  all_goals omega

end

mutual

/-- The deep copy the copy constructor's `shallow_copy` + stack traversal
performs: every node is duplicated with its prefix and data, the child graph
is rebuilt, and each duplicate lives at a fresh address.  Fresh addresses
are modelled by shifting every id by the allocation counter (all shifted ids
are fresh and the old-to-new address mapping `OtherNodeToNode` becomes
`· + off`). -/
def shiftIds (off : Nat) : node T → node T
  | .mk data pre children id => .mk data pre (shiftIdsL off children) (id + off)
termination_by n => sizeOf n
decreasing_by
  all_goals simp only [node.mk.sizeOf_spec, List.cons.sizeOf_spec, Prod.mk.sizeOf_spec]
  all_goals omega

/-- `shiftIds` over a children map. -/
def shiftIdsL (off : Nat) : List (Char × node T) → List (Char × node T)
  | [] => []
  | (c, ch) :: rest => (c, shiftIds off ch) :: shiftIdsL off rest
termination_by l => sizeOf l
decreasing_by
  all_goals simp only [node.mk.sizeOf_spec, List.cons.sizeOf_spec, Prod.mk.sizeOf_spec]
  all_goals omega

end

/-- `size_t` arithmetic: `Length` lives in 64 bits. -/
def w64 : Nat := 2 ^ 64

/-- `++ Length` on a `size_t`. -/
def inc64 (n : Nat) : Nat := (n + 1) % w64

/-- `-- Length` on a `size_t` (wraps on 0). -/
def dec64 (n : Nat) : Nat := (n + (w64 - 1)) % w64

/-- `tree<T>`: the owned root, the `Length` counter, the tracking list
`Nodes` of `(Key, node address)` pairs (most recently touched first;
`NodeToNodesIterator` is the position of an id in this list), and the
allocation counter producing fresh node addresses. -/
structure tree (T : Type) : Type where
  root : node T
  len : Nat
  nodes : List (List Char × Nat)
  next : Nat

namespace tree

/-- `tree()`: a fresh root with an empty prefix and nothing tracked. -/
def empty (T : Type) : tree T := ⟨.mk none [] [] 0, 0, [], 1⟩

/-- `track(Node, Key)`: push `(Key, Node)` at the front of `Nodes` and drop
the node's previous entry, if any (the stored iterator points at it). -/
def trackL (k : List Char) (i : Nat) (ns : List (List Char × Nat)) :
    List (List Char × Nat) :=
  (k, i) :: ns.filter (fun p => p.2 ≠ i)

/-- `untrack(Node)`: drop the node's entry.  When the node was never tracked
the source extracts an empty map handle and erases through it (undefined
behaviour); the model makes that a no-op. -/
def untrackL (i : Nat) (ns : List (List Char × Nat)) : List (List Char × Nat) :=
  ns.filter (fun p => p.2 ≠ i)

/-- `tree<T>::insert(Key, Value)`. -/
def insert (t : tree T) (k : List Char) (v : T) : tree T :=
  let r := insertAux k v t.root k t.next
  { root := r.n,
    len := if r.inc then inc64 t.len else t.len,
    nodes := match r.tracked with
      | some i => trackL k i t.nodes
      | none => t.nodes,
    next := r.next }

/-- `tree<T>::operator[](Key)` (get-or-insert); `.2` is the value the
returned reference reads. -/
def getOrInsert [Inhabited T] (t : tree T) (k : List Char) : tree T × T :=
  let r := goiAux k t.root k t.next
  ({ root := r.n,
     len := if r.inc then inc64 t.len else t.len,
     nodes := match r.tracked with
       | some i => trackL k i t.nodes
       | none => t.nodes,
     next := r.next }, r.ret)

/-- `tree<T>::erase(Key)`.  The first loop iteration (where `Node` is the
root and `Parent`/`ParentParent` are null) is written out here; deeper
iterations are `eraseAux`.  On the root's `exact_match` no reorganization
happens (`Node == &*Root`); a `drop` directive from the child frame is a
plain removal because `ParentParent` is null at this level. -/
def erase (t : tree T) (k : List Char) : tree T :=
  match comparePrefixes true t.root.pre k with
  | (.no_match, _) => t
  | (.partial_match, _) => t
  | (.exact_match, _) =>
    { t with root := .mk none t.root.pre t.root.children t.root.id,
             nodes := untrackL t.root.id t.nodes,
             len := dec64 t.len }
  | (.prefix_full_match, m) =>
    match lookupChild ((k.drop m).headI) t.root.children with
    | none => t
    | some child =>
      let r := eraseAux child (k.drop m)
      let root' : node T :=
        match r.out with
        | .keep n' =>
          .mk t.root.data t.root.pre
            (setChild ((k.drop m).headI) n' t.root.children) t.root.id
        | .drop =>
          .mk t.root.data t.root.pre
            (removeChild ((k.drop m).headI) t.root.children) t.root.id
        | .mergeUp p' merged =>
          .mk t.root.data t.root.pre
            (setChild merged.pre.headI merged
              (setChild ((k.drop m).headI) p' t.root.children)) t.root.id
      match r.touched with
      | some i =>
        { t with root := root', nodes := untrackL i t.nodes, len := dec64 t.len }
      | none => { t with root := root' }

/-- `tree<T>::contains(Key)`. -/
def containsT (t : tree T) (k : List Char) : Bool := containsAux t.root k

/-- `tree<T>::get(Key)`: the resident value, or the thrown `no_such_key`
exception carrying the queried key.  `useRadix` is the build-time
`AportRadixMode` flag selecting the `compare_prefixes` instantiation. -/
def get (useRadix : Bool) (t : tree T) (k : List Char) : Except (List Char) T :=
  match getAux useRadix t.root k with
  | some v => .ok v
  | none => .error k

/-- `tree<T>::clear()`: `Root = make_unique<node>("")` — a fresh empty root;
`Length`, `Nodes` and `NodeToNodesIterator` are left as they are. -/
def clear (t : tree T) : tree T :=
  { t with root := .mk none [] [] t.next, next := t.next + 1 }

/-- `tree<T>::length()`. -/
def length (t : tree T) : Nat := t.len

/-- Iteration from `begin()` to `end()`: walk `Nodes` in order, each entry
dereferencing to its key and the data of the tracked node (`*Node->Data`;
`none` models the undefined dereference of a stale entry). -/
def iter (t : tree T) : List (List Char × Option T) :=
  t.nodes.map (fun p => (p.1, valueOfId t.root p.2))

/-- `tree(const tree &)`: deep-copy the node graph at fresh addresses
(`shiftIds`), replay `Nodes` in reverse emplacing at the front — which
reproduces the original order with the remapped addresses — and take over
`Length`. -/
def copy (t : tree T) : tree T :=
  { root := shiftIds t.next t.root,
    len := t.len,
    nodes := t.nodes.map (fun p => (p.1, p.2 + t.next)),
    next := t.next + t.next }

end tree

/-- One mutating operation of the public surface, for stating properties
over operation sequences. -/
inductive op (T : Type) : Type where
  | ins (k : List Char) (v : T) : op T
  | ers (k : List Char) : op T
  | goi (k : List Char) : op T

/-- Run one operation. -/
def applyOp [Inhabited T] (t : tree T) : op T → tree T
  | .ins k v => t.insert k v
  | .ers k => t.erase k
  | .goi k => (t.getOrInsert k).1

/-- Run a sequence of operations. -/
def applyOps [Inhabited T] (t : tree T) (l : List (op T)) : tree T :=
  l.foldl applyOp t

/-! ### Case analysis for the radix comparison -/

/-- The four outcomes of `compare_prefixes<true>`, each with the facts the
classification encodes. -/
theorem compareT_cases (pre s : List Char) :
    (comparePrefixes true pre s = (.exact_match, matchedCount pre s) ∧ pre = s) ∨
    (comparePrefixes true pre s = (.prefix_full_match, matchedCount pre s) ∧
      matchedCount pre s = pre.length ∧ matchedCount pre s < s.length) ∨
    (comparePrefixes true pre s = (.no_match, 0) ∧
      matchedCount pre s = 0 ∧ pre ≠ []) ∨
    (comparePrefixes true pre s = (.partial_match, matchedCount pre s) ∧
      0 < matchedCount pre s ∧ matchedCount pre s < pre.length) := by
  have hl := matchedCount_le_left pre s
  have hr := matchedCount_le_right pre s
  have hdef : comparePrefixes true pre s =
      (if pre.length = matchedCount pre s then
        (if s.length = matchedCount pre s then (.exact_match, matchedCount pre s)
          else (.prefix_full_match, matchedCount pre s))
      else if matchedCount pre s = 0 then (.no_match, 0)
      else (.partial_match, matchedCount pre s)) := rfl
  by_cases h1 : pre.length = matchedCount pre s
  · by_cases h2 : s.length = matchedCount pre s
    · left
      refine ⟨?_, eq_of_matchedCount pre s h1.symm h2.symm⟩
      rw [hdef, if_pos h1, if_pos h2]
    · right; left
      refine ⟨?_, h1.symm, lt_of_le_of_ne hr (fun hh => h2 hh.symm)⟩
      rw [hdef, if_pos h1, if_neg h2]
  · by_cases h3 : matchedCount pre s = 0
    · right; right; left
      refine ⟨?_, h3, ?_⟩
      · rw [hdef, if_neg h1, if_pos h3]
      · intro hnil
        exact h1 (by simp [hnil, matchedCount])
    · right; right; right
      refine ⟨?_, Nat.pos_of_ne_zero h3, lt_of_le_of_ne hl (fun hh => h1 hh.symm)⟩
      rw [hdef, if_neg h1, if_neg h3]

/-! ### Unfolding equations for the traversal loops -/

theorem getAux_miss {u : Bool} {d : Option T} {p : List Char}
    {ch : List (Char × node T)} {i : Nat} {s : List Char} {m : Nat}
    (hc : comparePrefixes u p s = (.no_match, m) ∨
      comparePrefixes u p s = (.partial_match, m)) :
    getAux u (.mk d p ch i) s = none := by
  rcases hc with hc | hc <;> rw [getAux, hc]

theorem getAux_exact {u : Bool} {d : Option T} {p : List Char}
    {ch : List (Char × node T)} {i : Nat} {s : List Char} {m : Nat}
    (hc : comparePrefixes u p s = (.exact_match, m)) :
    getAux u (.mk d p ch i) s = d := by
  rw [getAux, hc]

theorem getAux_full_some {u : Bool} {d : Option T} {p : List Char}
    {ch : List (Char × node T)} {i : Nat} {s : List Char} {m : Nat} {child : node T}
    (hc : comparePrefixes u p s = (.prefix_full_match, m))
    (hl : lookupChild ((s.drop m).headI) ch = some child) :
    getAux u (.mk d p ch i) s = getAux u child (s.drop m) := by
  rw [getAux, hc]
  split <;> rename_i hsplit
  · simp at hsplit
  · simp at hsplit
  · simp at hsplit
  · simp only [Prod.mk.injEq, true_and] at hsplit
    subst hsplit
    split
    · rename_i child' h'
      rw [hl] at h'
      injection h' with h''
      rw [h'']
    · rename_i h'
      rw [hl] at h'
      cases h'

theorem getAux_full_none {u : Bool} {d : Option T} {p : List Char}
    {ch : List (Char × node T)} {i : Nat} {s : List Char} {m : Nat}
    (hc : comparePrefixes u p s = (.prefix_full_match, m))
    (hl : lookupChild ((s.drop m).headI) ch = none) :
    getAux u (.mk d p ch i) s = none := by
  rw [getAux, hc]
  split <;> rename_i hsplit
  · simp at hsplit
  · simp at hsplit
  · simp at hsplit
  · simp only [Prod.mk.injEq, true_and] at hsplit
    subst hsplit
    split
    · rename_i child' h'
      rw [hl] at h'
      cases h'
    · rfl

theorem containsAux_miss {d : Option T} {p : List Char}
    {ch : List (Char × node T)} {i : Nat} {s : List Char} {m : Nat}
    (hc : comparePrefixes true p s = (.no_match, m) ∨
      comparePrefixes true p s = (.partial_match, m)) :
    containsAux (.mk d p ch i) s = false := by
  rcases hc with hc | hc <;> rw [containsAux, hc]

theorem containsAux_exact {d : Option T} {p : List Char}
    {ch : List (Char × node T)} {i : Nat} {s : List Char} {m : Nat}
    (hc : comparePrefixes true p s = (.exact_match, m)) :
    containsAux (.mk d p ch i) s = d.isSome := by
  rw [containsAux, hc]

theorem containsAux_full_some {d : Option T} {p : List Char}
    {ch : List (Char × node T)} {i : Nat} {s : List Char} {m : Nat} {child : node T}
    (hc : comparePrefixes true p s = (.prefix_full_match, m))
    (hl : lookupChild ((s.drop m).headI) ch = some child) :
    containsAux (.mk d p ch i) s = containsAux child (s.drop m) := by
  rw [containsAux, hc]
  split <;> rename_i hsplit
  · simp at hsplit
  · simp at hsplit
  · simp at hsplit
  · simp only [Prod.mk.injEq, true_and] at hsplit
    subst hsplit
    split
    · rename_i child' h'
      rw [hl] at h'
      injection h' with h''
      rw [h'']
    · rename_i h'
      rw [hl] at h'
      cases h'

theorem containsAux_full_none {d : Option T} {p : List Char}
    {ch : List (Char × node T)} {i : Nat} {s : List Char} {m : Nat}
    (hc : comparePrefixes true p s = (.prefix_full_match, m))
    (hl : lookupChild ((s.drop m).headI) ch = none) :
    containsAux (.mk d p ch i) s = false := by
  rw [containsAux, hc]
  split <;> rename_i hsplit
  · simp at hsplit
  · simp at hsplit
  · simp at hsplit
  · simp only [Prod.mk.injEq, true_and] at hsplit
    subst hsplit
    split
    · rename_i child' h'
      rw [hl] at h'
      cases h'
    · rfl

/-! ### An induction principle following the child structure -/

theorem sizeOf_snd_lt {x : Char × node T} {ch : List (Char × node T)}
    (hx : x ∈ ch) : sizeOf x.2 < sizeOf ch := by
  have h := List.sizeOf_lt_of_mem hx
  obtain ⟨c, n⟩ := x
  simp only [Prod.mk.sizeOf_spec] at h ⊢
  omega

/-- Induction over a node via membership in its children map. -/
def node.inductChildren {motive : node T → Prop}
    (step : ∀ (d : Option T) (p : List Char) (ch : List (Char × node T)) (i : Nat),
      (∀ x ∈ ch, motive x.2) → motive (.mk d p ch i)) :
    ∀ n, motive n
  | .mk d p ch i =>
    step d p ch i (fun x hx => node.inductChildren step x.2)
termination_by n => sizeOf n
decreasing_by
  have := sizeOf_snd_lt hx
  simp only [node.mk.sizeOf_spec]
  omega

/-- The loops of `contains` and `get<true>` take the same branches:
`contains` is the `isSome` of the radix-mode lookup. -/
theorem containsAux_eq_isSome : ∀ (n : node T) (s : List Char),
    containsAux n s = (getAux true n s).isSome := by
  intro n
  induction n using node.inductChildren with
  | step d p ch i IH =>
    intro s
    rcases compareT_cases p s with ⟨hc, _⟩ | ⟨hc, _, _⟩ | ⟨hc, _, _⟩ | ⟨hc, _, _⟩
    · rw [containsAux_exact hc, getAux_exact hc]
    · cases hl : lookupChild ((s.drop (matchedCount p s)).headI) ch with
      | some child =>
        rw [containsAux_full_some hc hl, getAux_full_some hc hl]
        exact IH _ (lookupChild_mem hl) _
      | none => rw [containsAux_full_none hc hl, getAux_full_none hc hl]; rfl
    · rw [containsAux_miss (Or.inl hc), getAux_miss (Or.inl hc)]; rfl
    · rw [containsAux_miss (Or.inr hc), getAux_miss (Or.inr hc)]; rfl

/-- Optimistic lookups never miss a genuinely resident key: whenever the
radix-mode loop resolves a value, the optimistic loop resolves the same
value (on the true path the two comparison modes classify identically). -/
theorem getAux_optimistic_of_radix : ∀ (n : node T) (s : List Char) (v : T),
    getAux true n s = some v → getAux false n s = some v := by
  intro n
  induction n using node.inductChildren with
  | step d p ch i IH =>
    intro s v hget
    rcases compareT_cases p s with ⟨hc, hps⟩ | ⟨hc, hm, hlt⟩ | ⟨hc, _, _⟩ | ⟨hc, _, _⟩
    · rw [getAux_exact hc] at hget
      have hOpt : comparePrefixes false p s = (.exact_match, p.length) := by
        have : p.length = s.length := by rw [hps]
        simp [comparePrefixes, this]
      rw [getAux_exact hOpt, hget]
    · -- prefix fully matched: both modes descend through the same child
      have hlen : p.length < s.length := by omega
      have hOpt : comparePrefixes false p s = (.prefix_full_match, p.length) := by
        simp [comparePrefixes, hlen]
      rw [← hm] at hOpt
      cases hl : lookupChild ((s.drop (matchedCount p s)).headI) ch with
      | some child =>
        rw [getAux_full_some hc hl] at hget
        rw [getAux_full_some hOpt hl]
        exact IH _ (lookupChild_mem hl) _ _ hget
      | none =>
        rw [getAux_full_none hc hl] at hget
        cases hget
    · rw [getAux_miss (Or.inl hc)] at hget
      cases hget
    · rw [getAux_miss (Or.inr hc)] at hget
      cases hget

/-! ### Helper lemmas for the mutation proofs -/

/-- The head-character discipline the traversals re-establish on descent:
when the node's prefix is non-empty, the remaining suffix starts with the
same character (trivially true at the root, whose prefix is empty). -/
def agree (n : node T) (s : List Char) : Prop :=
  n.pre ≠ [] → s ≠ [] ∧ n.pre.headI = s.headI

theorem agree_of_pre_nil {n : node T} (h : n.pre = []) (s : List Char) :
    agree n s := fun hne => absurd h hne

theorem matchedCount_pos (p s : List Char) (hp : p ≠ []) (hs : s ≠ [])
    (h : p.headI = s.headI) : 0 < matchedCount p s := by
  cases p with
  | nil => exact absurd rfl hp
  | cons a p =>
    cases s with
    | nil => exact absurd rfl hs
    | cons b s =>
      simp only [List.headI] at h
      simp [matchedCount, h]

theorem headI_take {p : List Char} {m : Nat} (hm : 0 < m) :
    (p.take m).headI = p.headI := by
  cases p with
  | nil => simp
  | cons a p =>
    cases m with
    | zero => omega
    | succ n => simp [List.take_succ_cons]

theorem take_ne_nil {p : List Char} {m : Nat} (hp : p ≠ []) (hm : 0 < m) :
    p.take m ≠ [] := by
  cases p with
  | nil => exact absurd rfl hp
  | cons a p =>
    cases m with
    | zero => omega
    | succ n => simp

theorem drop_ne_nil {p : List Char} {m : Nat} (hm : m < p.length) :
    p.drop m ≠ [] := by
  intro h
  have := List.length_drop m p
  rw [h] at this
  simp at this
  omega

theorem headI_append {p x : List Char} (hp : p ≠ []) :
    (p ++ x).headI = p.headI := by
  cases p with
  | nil => exact absurd rfl hp
  | cons a p => simp

/-- When the whole left string matches, matching its extension continues
past it. -/
theorem matchedCount_append_full (p x s : List Char)
    (h : matchedCount p s = p.length) :
    matchedCount (p ++ x) s = p.length + matchedCount x (s.drop p.length) := by
  induction p generalizing s with
  | nil => simp
  | cons a p ih =>
    cases s with
    | nil => simp [matchedCount] at h
    | cons b s =>
      by_cases hab : a = b
      · have hstep : matchedCount (a :: (p ++ x)) (b :: s) = matchedCount (p ++ x) s + 1 := by
          simp [matchedCount, hab]
        have hstep2 : matchedCount (a :: p) (b :: s) = matchedCount p s + 1 := by
          simp [matchedCount, hab]
        rw [hstep2, List.length_cons] at h
        have h' : matchedCount p s = p.length := by omega
        rw [List.cons_append, hstep, ih s h', List.length_cons, List.drop_succ_cons]
        omega
      · simp [matchedCount, hab] at h

/-- When the left string mismatches inside itself, extending it changes
nothing. -/
theorem matchedCount_append_lt (p x s : List Char)
    (h : matchedCount p s < p.length) :
    matchedCount (p ++ x) s = matchedCount p s := by
  induction p generalizing s with
  | nil => simp [matchedCount] at h
  | cons a p ih =>
    cases s with
    | nil => simp [matchedCount]
    | cons b s =>
      by_cases hab : a = b
      · simp only [matchedCount, if_pos hab, List.length_cons,
          Nat.add_lt_add_iff_right] at h
        simp [List.cons_append, matchedCount, hab, ih s h]
      · simp [matchedCount, hab]

@[simp] theorem setChild_setChild (c : Char) (x y : node T)
    (l : List (Char × node T)) :
    setChild c x (setChild c y l) = setChild c x l := by
  induction l with
  | nil => simp [setChild]
  | cons p rest ih =>
    obtain ⟨c', n'⟩ := p
    by_cases h : c' = c <;> simp [setChild, h, ih]

theorem setChild_length_of_some {c : Char} {l : List (Char × node T)}
    {y : node T} (h : lookupChild c l = some y) {n : node T} :
    (setChild c n l).length = l.length := by
  induction l with
  | nil => simp [lookupChild] at h
  | cons p rest ih =>
    obtain ⟨c', n'⟩ := p
    by_cases hc : c' = c
    · simp [setChild, hc]
    · simp only [lookupChild, if_neg hc] at h
      simp [setChild, hc, ih h]

theorem setChild_length_of_none {c : Char} {l : List (Char × node T)}
    (h : lookupChild c l = none) {n : node T} :
    (setChild c n l).length = l.length + 1 := by
  induction l with
  | nil => simp [setChild]
  | cons p rest ih =>
    obtain ⟨c', n'⟩ := p
    by_cases hc : c' = c
    · simp [lookupChild, hc] at h
    · simp only [lookupChild, if_neg hc] at h
      simp [setChild, hc, ih h]

theorem removeChild_length_of_some {c : Char} {l : List (Char × node T)}
    {y : node T} (h : lookupChild c l = some y) :
    (removeChild c l).length + 1 = l.length := by
  induction l with
  | nil => simp [lookupChild] at h
  | cons p rest ih =>
    obtain ⟨c', n'⟩ := p
    by_cases hc : c' = c
    · simp [removeChild, hc]
    · simp only [lookupChild, if_neg hc] at h
      simp [removeChild, hc, ← ih h]

/-! ### Unfolding and access lemmas for the `Bool` invariants -/

theorem wfb_mk (d : Option T) (p : List Char) (ch : List (Char × node T))
    (i : Nat) : wfb (.mk d p ch i) = wfbL ch := by
  rw [wfb]

@[simp] theorem wfbL_nil : wfbL ([] : List (Char × node T)) = true := by rw [wfbL]

theorem wfbL_cons (c : Char) (n : node T) (rest : List (Char × node T)) :
    wfbL ((c, n) :: rest) =
      ((!n.pre.isEmpty && n.pre.headI == c && wfb n && !(lookupChild c rest).isSome)
        && wfbL rest) := by
  rw [wfbL]

theorem wfbL_lookup {ch : List (Char × node T)} {c : Char} {child : node T}
    (hw : wfbL ch = true) (hl : lookupChild c ch = some child) :
    child.pre ≠ [] ∧ child.pre.headI = c ∧ wfb child = true := by
  induction ch with
  | nil => simp [lookupChild] at hl
  | cons p rest ih =>
    obtain ⟨c', n'⟩ := p
    rw [wfbL_cons] at hw
    simp only [Bool.and_eq_true, Bool.not_eq_true', beq_iff_eq] at hw
    obtain ⟨⟨⟨⟨hne, hhead⟩, hwf⟩, _⟩, hrest⟩ := hw
    by_cases hc : c' = c
    · subst hc
      simp only [lookupChild, if_pos rfl] at hl
      injection hl with hl
      subst hl
      refine ⟨?_, hhead, hwf⟩
      simp [List.isEmpty_iff] at hne
      exact hne
    · simp only [lookupChild, if_neg hc] at hl
      exact ih hrest hl

theorem wfbL_setChild {ch : List (Char × node T)} {c : Char} {n : node T}
    (hw : wfbL ch = true) (hne : n.pre ≠ []) (hh : n.pre.headI = c)
    (hwf : wfb n = true) : wfbL (setChild c n ch) = true := by
  induction ch with
  | nil =>
    simp only [setChild]
    rw [wfbL_cons]
    simp [hwf, hh, List.isEmpty_iff, hne, lookupChild]
  | cons p rest ih =>
    obtain ⟨c', n'⟩ := p
    rw [wfbL_cons] at hw
    simp only [Bool.and_eq_true] at hw
    obtain ⟨hfst, hrest⟩ := hw
    by_cases hc : c' = c
    · subst hc
      rw [show setChild c' n ((c', n') :: rest) = (c', n) :: rest from by simp [setChild]]
      rw [wfbL_cons]
      simp only [Bool.and_eq_true, Bool.not_eq_true', beq_iff_eq] at hfst ⊢
      refine ⟨⟨⟨⟨?_, hh⟩, hwf⟩, ?_⟩, hrest⟩
      · simp [List.isEmpty_iff, hne]
      · exact hfst.2
    · simp only [setChild, if_neg hc, wfbL_cons, Bool.and_eq_true]
      refine ⟨?_, ih hrest⟩
      simp only [Bool.and_eq_true, Bool.not_eq_true'] at hfst ⊢
      refine ⟨hfst.1, ?_⟩
      rw [lookupChild_setChild_ne _ _ (fun h => hc h.symm) _ _]
      exact hfst.2

theorem wfbL_removeChild {ch : List (Char × node T)} {c : Char}
    (hw : wfbL ch = true) : wfbL (removeChild c ch) = true := by
  induction ch with
  | nil => simp [removeChild]
  | cons p rest ih =>
    obtain ⟨c', n'⟩ := p
    rw [wfbL_cons] at hw
    simp only [Bool.and_eq_true] at hw
    obtain ⟨hfst, hrest⟩ := hw
    by_cases hc : c' = c
    · simp only [removeChild, if_pos hc]
      exact hrest
    · simp only [removeChild, if_neg hc, wfbL_cons, Bool.and_eq_true]
      refine ⟨?_, ih hrest⟩
      simp only [Bool.and_eq_true, Bool.not_eq_true'] at hfst ⊢
      refine ⟨hfst.1, ?_⟩
      rw [lookupChild_removeChild_ne _ _ (fun h => hc h.symm) _]
      exact hfst.2

/-- Under the key-uniqueness discipline, removing a key removes it for good. -/
theorem lookupChild_removeChild_self {ch : List (Char × node T)} {c : Char}
    (hw : wfbL ch = true) : lookupChild c (removeChild c ch) = none := by
  induction ch with
  | nil => simp [removeChild]
  | cons p rest ih =>
    obtain ⟨c', n'⟩ := p
    rw [wfbL_cons] at hw
    simp only [Bool.and_eq_true] at hw
    obtain ⟨hfst, hrest⟩ := hw
    by_cases hc : c' = c
    · subst hc
      simp only [removeChild, if_pos rfl]
      simp only [Bool.and_eq_true, Bool.not_eq_true'] at hfst
      simpa using hfst.2
    · simp only [removeChild, if_neg hc, lookupChild, if_neg hc]
      exact ih hrest

theorem compactB_mk (d : Option T) (p : List Char) (ch : List (Char × node T))
    (i : Nat) :
    compactB (.mk d p ch i) = ((d.isSome || decide (2 ≤ ch.length)) && compactL ch) := by
  rw [compactB]

@[simp] theorem compactL_nil : compactL ([] : List (Char × node T)) = true := by
  rw [compactL]

theorem compactL_cons (c : Char) (n : node T) (rest : List (Char × node T)) :
    compactL ((c, n) :: rest) = (compactB n && compactL rest) := by
  rw [compactL]

theorem compactL_lookup {ch : List (Char × node T)} {c : Char} {child : node T}
    (hw : compactL ch = true) (hl : lookupChild c ch = some child) :
    compactB child = true := by
  induction ch with
  | nil => simp [lookupChild] at hl
  | cons p rest ih =>
    obtain ⟨c', n'⟩ := p
    rw [compactL_cons] at hw
    simp only [Bool.and_eq_true] at hw
    by_cases hc : c' = c
    · subst hc
      simp only [lookupChild, if_pos rfl] at hl
      injection hl with hl
      subst hl
      exact hw.1
    · simp only [lookupChild, if_neg hc] at hl
      exact ih hw.2 hl

theorem compactL_setChild {ch : List (Char × node T)} {c : Char} {n : node T}
    (hw : compactL ch = true) (hn : compactB n = true) :
    compactL (setChild c n ch) = true := by
  induction ch with
  | nil => simp [setChild, compactL_cons, hn]
  | cons p rest ih =>
    obtain ⟨c', n'⟩ := p
    rw [compactL_cons] at hw
    simp only [Bool.and_eq_true] at hw
    by_cases hc : c' = c
    · simp only [setChild, if_pos hc, compactL_cons, Bool.and_eq_true]
      exact ⟨hn, hw.2⟩
    · simp only [setChild, if_neg hc, compactL_cons, Bool.and_eq_true]
      exact ⟨hw.1, ih hw.2⟩

theorem compactL_removeChild {ch : List (Char × node T)} {c : Char}
    (hw : compactL ch = true) : compactL (removeChild c ch) = true := by
  induction ch with
  | nil => simp [removeChild]
  | cons p rest ih =>
    obtain ⟨c', n'⟩ := p
    rw [compactL_cons] at hw
    simp only [Bool.and_eq_true] at hw
    by_cases hc : c' = c
    · simp only [removeChild, if_pos hc]
      exact hw.2
    · simp only [removeChild, if_neg hc, compactL_cons, Bool.and_eq_true]
      exact ⟨hw.1, ih hw.2⟩

/-! ### Unfolding equations for `insertAux` -/

theorem insertAux_no {k : List Char} {v : T} {d : Option T} {p : List Char}
    {ch : List (Char × node T)} {i f : Nat} {s : List Char} {m : Nat}
    (hc : comparePrefixes true p s = (.no_match, m)) :
    insertAux k v (.mk d p ch i) s f = ⟨.mk d p ch i, none, false, f⟩ := by
  rw [insertAux, hc]

theorem insertAux_exact {k : List Char} {v : T} {d : Option T} {p : List Char}
    {ch : List (Char × node T)} {i f : Nat} {s : List Char} {m : Nat}
    (hc : comparePrefixes true p s = (.exact_match, m)) :
    insertAux k v (.mk d p ch i) s f = ⟨.mk (some v) p ch i, some i, d.isNone, f⟩ := by
  rw [insertAux, hc]

theorem insertAux_full_some {k : List Char} {v : T} {d : Option T} {p : List Char}
    {ch : List (Char × node T)} {i f : Nat} {s : List Char} {m : Nat} {child : node T}
    (hc : comparePrefixes true p s = (.prefix_full_match, m))
    (hl : lookupChild ((s.drop m).headI) ch = some child) :
    insertAux k v (.mk d p ch i) s f =
      ⟨.mk d p (setChild ((s.drop m).headI) (insertAux k v child (s.drop m) f).n ch) i,
        (insertAux k v child (s.drop m) f).tracked,
        (insertAux k v child (s.drop m) f).inc,
        (insertAux k v child (s.drop m) f).next⟩ := by
  rw [insertAux, hc]
  split <;> rename_i hsplit
  · simp at hsplit
  · simp at hsplit
  · simp only [Prod.mk.injEq, true_and] at hsplit
    subst hsplit
    split
    · rename_i child' h'
      rw [hl] at h'
      injection h' with h''
      subst h''
      rfl
    · rename_i h'
      rw [hl] at h'
      cases h'
  · simp at hsplit

theorem insertAux_full_none {k : List Char} {v : T} {d : Option T} {p : List Char}
    {ch : List (Char × node T)} {i f : Nat} {s : List Char} {m : Nat}
    (hc : comparePrefixes true p s = (.prefix_full_match, m))
    (hl : lookupChild ((s.drop m).headI) ch = none) :
    insertAux k v (.mk d p ch i) s f =
      ⟨.mk d p (setChild ((s.drop m).headI) (.mk (some v) (s.drop m) [] f) ch) i,
        some f, true, f + 1⟩ := by
  rw [insertAux, hc]
  split <;> rename_i hsplit
  · simp at hsplit
  · simp at hsplit
  · simp only [Prod.mk.injEq, true_and] at hsplit
    subst hsplit
    split
    · rename_i child' h'
      rw [hl] at h'
      cases h'
    · rfl
  · simp at hsplit

theorem insertAux_partial_pos {k : List Char} {v : T} {d : Option T} {p : List Char}
    {ch : List (Char × node T)} {i f : Nat} {s : List Char} {m : Nat}
    (hc : comparePrefixes true p s = (.partial_match, m))
    (hs : 0 < (s.drop m).length) :
    insertAux k v (.mk d p ch i) s f =
      ⟨.mk none (p.take m)
          (setChild ((s.drop m).headI) (.mk (some v) (s.drop m) [] (f + 1))
            (setChild ((p.drop m).headI) (.mk d (p.drop m) ch i) [])) f,
        some (f + 1), true, f + 2⟩ := by
  rw [insertAux, hc]
  split <;> rename_i hsplit
  · simp at hsplit
  · simp at hsplit
  · simp at hsplit
  · simp only [Prod.mk.injEq, true_and] at hsplit
    subst hsplit
    rw [if_pos hs]

theorem insertAux_partial_zero {k : List Char} {v : T} {d : Option T} {p : List Char}
    {ch : List (Char × node T)} {i f : Nat} {s : List Char} {m : Nat}
    (hc : comparePrefixes true p s = (.partial_match, m))
    (hs : ¬ 0 < (s.drop m).length) :
    insertAux k v (.mk d p ch i) s f =
      ⟨.mk (some v) (p.take m)
          (setChild ((p.drop m).headI) (.mk d (p.drop m) ch i) []) f,
        some f, true, f + 1⟩ := by
  rw [insertAux, hc]
  split <;> rename_i hsplit
  · simp at hsplit
  · simp at hsplit
  · simp at hsplit
  · simp only [Prod.mk.injEq, true_and] at hsplit
    subst hsplit
    rw [if_neg hs]

/-! ### More comparison helpers -/

/-- Inside the matched run the two strings have the same character. -/
theorem matchedCount_headI_eq {p s : List Char} {m : Nat}
    (h : m < matchedCount p s) : (p.drop m).headI = (s.drop m).headI := by
  induction m generalizing p s with
  | zero =>
    cases p with
    | nil => simp [matchedCount] at h
    | cons a p =>
      cases s with
      | nil => simp [matchedCount] at h
      | cons b s =>
        by_cases hab : a = b
        · simp [hab]
        · simp [matchedCount, hab] at h
  | succ n ih =>
    cases p with
    | nil => simp [matchedCount] at h
    | cons a p =>
      cases s with
      | nil => simp [matchedCount] at h
      | cons b s =>
        by_cases hab : a = b
        · simp only [matchedCount, if_pos hab] at h
          simp only [List.drop_succ_cons]
          exact ih (by omega)
        · simp [matchedCount, hab] at h

theorem drop_ne_of_ne_of_take_eq {s' s : List Char} {m : Nat}
    (hne : s' ≠ s) (ht : s'.take m = s.take m) : s'.drop m ≠ s.drop m := by
  intro hd
  apply hne
  rw [← List.take_append_drop m s', ← List.take_append_drop m s, ht, hd]

/-- When the comparison consumed the whole prefix, the suffix starts with
the prefix itself. -/
theorem take_eq_of_matchedCount_full {p s : List Char}
    (h : matchedCount p s = p.length) : s.take p.length = p := by
  have := matchedCount_take p s
  rw [h, List.take_length] at this
  exact this.symm

/-- A descent step never changes the result when the modified children map
looks the same at the descent character. -/
theorem getAux_full_congr {u : Bool} {d d' : Option T} {p : List Char}
    {ch ch' : List (Char × node T)} {i i' : Nat} {s' : List Char} {m : Nat}
    (hc : comparePrefixes u p s' = (.prefix_full_match, m))
    (h : lookupChild ((s'.drop m).headI) ch' = lookupChild ((s'.drop m).headI) ch) :
    getAux u (.mk d' p ch' i') s' = getAux u (.mk d p ch i) s' := by
  cases hl : lookupChild ((s'.drop m).headI) ch with
  | some child => rw [getAux_full_some hc (h.trans hl), getAux_full_some hc hl]
  | none => rw [getAux_full_none hc (h.trans hl), getAux_full_none hc hl]

/-- The two possible results of a lookup in a still-unmodified tree:
restated classification for a second key `s'` against the same prefix. -/
theorem length_take_of_le {p : List Char} {m : Nat} (h : m ≤ p.length) :
    (p.take m).length = m := by
  simp [List.length_take, Nat.min_eq_left h]

/-- Build the `comparison_result` equation from the length facts. -/
theorem compareT_of_full {p s : List Char} (hm : matchedCount p s = p.length)
    (hlt : p.length < s.length) :
    comparePrefixes true p s = (.prefix_full_match, matchedCount p s) := by
  have hdef : comparePrefixes true p s =
      (if p.length = matchedCount p s then
        (if s.length = matchedCount p s then (.exact_match, matchedCount p s)
          else (.prefix_full_match, matchedCount p s))
      else if matchedCount p s = 0 then (.no_match, 0)
      else (.partial_match, matchedCount p s)) := rfl
  rw [hdef, if_pos hm.symm, if_neg (by omega)]

theorem compareT_of_exact {p s : List Char} (hm : matchedCount p s = p.length)
    (heq : s.length = p.length) :
    comparePrefixes true p s = (.exact_match, matchedCount p s) := by
  have hdef : comparePrefixes true p s =
      (if p.length = matchedCount p s then
        (if s.length = matchedCount p s then (.exact_match, matchedCount p s)
          else (.prefix_full_match, matchedCount p s))
      else if matchedCount p s = 0 then (.no_match, 0)
      else (.partial_match, matchedCount p s)) := rfl
  rw [hdef, if_pos hm.symm, if_pos (by omega)]

theorem compareT_of_split {p s : List Char} (h0 : 0 < matchedCount p s)
    (hlt : matchedCount p s < p.length) :
    comparePrefixes true p s = (.partial_match, matchedCount p s) := by
  have hdef : comparePrefixes true p s =
      (if p.length = matchedCount p s then
        (if s.length = matchedCount p s then (.exact_match, matchedCount p s)
          else (.prefix_full_match, matchedCount p s))
      else if matchedCount p s = 0 then (.no_match, 0)
      else (.partial_match, matchedCount p s)) := rfl
  rw [hdef, if_neg (by omega), if_neg (by omega)]

theorem compareT_of_no {p s : List Char} (hm : matchedCount p s = 0)
    (hpne : p ≠ []) :
    comparePrefixes true p s = (.no_match, 0) := by
  have hplen : 0 < p.length := List.length_pos.mpr hpne
  have hdef : comparePrefixes true p s =
      (if p.length = matchedCount p s then
        (if s.length = matchedCount p s then (.exact_match, matchedCount p s)
          else (.prefix_full_match, matchedCount p s))
      else if matchedCount p s = 0 then (.no_match, 0)
      else (.partial_match, matchedCount p s)) := rfl
  rw [hdef, if_neg (by omega), if_pos hm]

/-- The self comparison is always exact. -/
theorem compareT_self (p : List Char) :
    comparePrefixes true p p = (.exact_match, p.length) := by
  have h := compareT_of_exact (p := p) (s := p) (matchedCount_self p) rfl
  rw [matchedCount_self] at h
  exact h

/-- A node whose prefix is shortened by an already-matched run behaves on
the shortened suffix exactly like the original node on the full suffix:
the split's reattached current node resolves continuing keys unchanged. -/
theorem getAux_split_descend {d : Option T} {p s' : List Char}
    {ch : List (Char × node T)} {i : Nat} {mc : Nat}
    (hmcp : mc < p.length) (h0 : 0 < mc) (hge : mc ≤ matchedCount p s') :
    getAux true (.mk d (p.drop mc) ch i) (s'.drop mc) =
      getAux true (.mk d p ch i) s' := by
  have hmd : matchedCount (p.drop mc) (s'.drop mc) = matchedCount p s' - mc :=
    matchedCount_drop p s' mc hge
  have hmle' := matchedCount_le_left p s'
  have hsle' := matchedCount_le_right p s'
  rcases compareT_cases p s' with ⟨hc', hps'⟩ | ⟨hc', hm', hlt'⟩ |
    ⟨hc', hm0', hpne'⟩ | ⟨hc', h0', hlt''⟩
  · subst hps'
    rw [getAux_exact hc', getAux_exact (compareT_self (p.drop mc))]
  · have hcd : comparePrefixes true (p.drop mc) (s'.drop mc) =
        (.prefix_full_match, matchedCount (p.drop mc) (s'.drop mc)) := by
      apply compareT_of_full
      · rw [hmd, List.length_drop]
        omega
      · rw [List.length_drop, List.length_drop]
        omega
    have hdd : (s'.drop mc).drop (matchedCount (p.drop mc) (s'.drop mc)) =
        s'.drop (matchedCount p s') := by
      rw [hmd, List.drop_drop]
      congr 1
      omega
    cases hl : lookupChild ((s'.drop (matchedCount p s')).headI) ch with
    | some g =>
      rw [getAux_full_some hc' hl, getAux_full_some hcd (by rw [hdd]; exact hl), hdd]
    | none =>
      rw [getAux_full_none hc' hl, getAux_full_none hcd (by rw [hdd]; exact hl)]
  · omega
  · rw [getAux_miss (Or.inr hc')]
    by_cases hmc : matchedCount p s' = mc
    · refine getAux_miss (Or.inl (compareT_of_no ?_ ?_))
      · rw [hmd, hmc]
        omega
      · exact drop_ne_nil hmcp
    · refine getAux_miss (Or.inr (compareT_of_split ?_ ?_))
      · rw [hmd]
        omega
      · rw [hmd, List.length_drop]
        omega

/-! ### The behaviour of one `insert` call on lookups -/

/-- What `insert`'s traversal does to radix lookups: the inserted key now
resolves to the inserted value, and every other key resolves as before. -/
theorem insertAux_get (k : List Char) (v : T) :
    ∀ (n : node T), wfb n = true → ∀ (s : List Char) (f : Nat), agree n s →
      getAux true (insertAux k v n s f).n s = some v ∧
      (∀ s', s' ≠ s → getAux true (insertAux k v n s f).n s' = getAux true n s') := by
  intro n
  induction n using node.inductChildren with
  | step d p ch i IH =>
    intro hw s f ha
    rcases compareT_cases p s with ⟨hc, hps⟩ | ⟨hc, hm, hlt⟩ | ⟨hc, hm0, hpne⟩ | ⟨hc, h0, hlt⟩
    · -- exact_match: the node receives the value, nothing else moves
      rw [insertAux_exact hc]
      refine ⟨by rw [getAux_exact hc], ?_⟩
      intro s' hne
      rcases compareT_cases p s' with ⟨hc', hps'⟩ | ⟨hc', _, _⟩ | ⟨hc', _, _⟩ | ⟨hc', _, _⟩
      · exact absurd (hps'.symm.trans hps) hne
      · exact getAux_full_congr hc' rfl
      · rw [getAux_miss (Or.inl hc'), getAux_miss (Or.inl hc')]
      · rw [getAux_miss (Or.inr hc'), getAux_miss (Or.inr hc')]
    · -- prefix_full_match
      have hmle : matchedCount p s ≤ p.length := matchedCount_le_left p s
      have hsne : s.drop (matchedCount p s) ≠ [] := drop_ne_nil hlt
      have hwL : wfbL ch = true := by rw [wfb_mk] at hw; exact hw
      cases hl : lookupChild ((s.drop (matchedCount p s)).headI) ch with
      | some child =>
        rw [insertAux_full_some hc hl]
        obtain ⟨hcne, hch, hcw⟩ := wfbL_lookup hwL hl
        have hagree : agree child (s.drop (matchedCount p s)) :=
          fun _ => ⟨hsne, by rw [hch]⟩
        obtain ⟨ih1, ih2⟩ := IH _ (lookupChild_mem hl) hcw (s.drop (matchedCount p s)) f hagree
        constructor
        · rw [getAux_full_some hc (lookupChild_setChild_self _ _ _)]
          exact ih1
        · intro s' hne
          rcases compareT_cases p s' with ⟨hc', hps'⟩ | ⟨hc', hm', hlt'⟩ |
            ⟨hc', _, _⟩ | ⟨hc', _, _⟩
          · rw [getAux_exact hc', getAux_exact hc']
          · have hmm : matchedCount p s' = matchedCount p s := by rw [hm', hm]
            rw [hmm] at hc'
            by_cases hcc : (s'.drop (matchedCount p s)).headI =
                (s.drop (matchedCount p s)).headI
            · rw [getAux_full_some hc' (by rw [hcc]; exact lookupChild_setChild_self _ _ _),
                getAux_full_some hc' (by rw [hcc]; exact hl)]
              apply ih2
              apply drop_ne_of_ne_of_take_eq hne
              have h1 : s'.take p.length = p := take_eq_of_matchedCount_full (by rw [hmm, hm])
              have h2 : s.take p.length = p := take_eq_of_matchedCount_full hm
              rw [hm, h1, h2]
            · exact getAux_full_congr hc'
                (lookupChild_setChild_ne _ _ (fun h => hcc h.symm) _ _)
          · rw [getAux_miss (Or.inl hc'), getAux_miss (Or.inl hc')]
          · rw [getAux_miss (Or.inr hc'), getAux_miss (Or.inr hc')]
      | none =>
        rw [insertAux_full_none hc hl]
        constructor
        · rw [getAux_full_some hc (lookupChild_setChild_self _ _ _)]
          rw [getAux,
            show comparePrefixes true (s.drop (matchedCount p s)) (s.drop (matchedCount p s))
              = (.exact_match, (s.drop (matchedCount p s)).length) from by
                simp [comparePrefixes, matchedCount_self]]
        · intro s' hne
          rcases compareT_cases p s' with ⟨hc', hps'⟩ | ⟨hc', hm', hlt'⟩ |
            ⟨hc', _, _⟩ | ⟨hc', _, _⟩
          · rw [getAux_exact hc', getAux_exact hc']
          · have hmm : matchedCount p s' = matchedCount p s := by rw [hm', hm]
            rw [hmm] at hc'
            by_cases hcc : (s'.drop (matchedCount p s)).headI =
                (s.drop (matchedCount p s)).headI
            · rw [getAux_full_some hc' (by rw [hcc]; exact lookupChild_setChild_self _ _ _),
                getAux_full_none hc' (by rw [hcc]; exact hl)]
              -- the fresh leaf holds only the inserted key: `s'` misses it
              have hdne : s'.drop (matchedCount p s) ≠ s.drop (matchedCount p s) := by
                apply drop_ne_of_ne_of_take_eq hne
                have h1 : s'.take p.length = p := take_eq_of_matchedCount_full (by rw [hmm, hm])
                have h2 : s.take p.length = p := take_eq_of_matchedCount_full hm
                rw [hm, h1, h2]
              rcases compareT_cases (s.drop (matchedCount p s)) (s'.drop (matchedCount p s))
                with ⟨hc'', heq⟩ | ⟨hc'', _, _⟩ | ⟨hc'', _, _⟩ | ⟨hc'', _, _⟩
              · exact absurd heq.symm hdne
              · rw [getAux_full_none hc'' (lookupChild_nil _)]
              · rw [getAux_miss (Or.inl hc'')]
              · rw [getAux_miss (Or.inr hc'')]
            · exact getAux_full_congr hc'
                (lookupChild_setChild_ne _ _ (fun h => hcc h.symm) _ _)
          · rw [getAux_miss (Or.inl hc'), getAux_miss (Or.inl hc')]
          · rw [getAux_miss (Or.inr hc'), getAux_miss (Or.inr hc')]
    · -- no_match is unreachable from a well-formed parent
      exfalso
      obtain ⟨hsnil, hhead⟩ := ha hpne
      have := matchedCount_pos p s hpne hsnil hhead
      omega
    · -- partial_match: the node is split
      have hmle : matchedCount p s ≤ s.length := matchedCount_le_right p s
      have hpne : p ≠ [] := by
        intro hnil
        rw [hnil] at hlt
        simp at hlt
      have htake : p.take (matchedCount p s) = s.take (matchedCount p s) :=
        matchedCount_take p s
      have htklen : (p.take (matchedCount p s)).length = matchedCount p s :=
        length_take_of_le (le_of_lt hlt)
      by_cases hs : 0 < (s.drop (matchedCount p s)).length
      · -- the key continues past the split point: a new leaf joins the split
        rw [insertAux_partial_pos hc hs]
        have hslt : matchedCount p s < s.length := by
          have := List.length_drop (matchedCount p s) s
          omega
        have hcpcs : (p.drop (matchedCount p s)).headI ≠
            (s.drop (matchedCount p s)).headI := matchedCount_ne p s hlt hslt
        have hmtk : matchedCount (p.take (matchedCount p s)) s = matchedCount p s := by
          rw [matchedCount_take_left]
          omega
        have htk : comparePrefixes true (p.take (matchedCount p s)) s =
            (.prefix_full_match, matchedCount p s) := by
          have h := compareT_of_full (p := p.take (matchedCount p s)) (s := s)
            (by rw [hmtk, htklen]) (by rw [htklen]; exact hslt)
          rw [hmtk] at h
          exact h
        constructor
        · rw [getAux_full_some htk (lookupChild_setChild_self _ _ _),
            getAux_exact (compareT_self _)]
        · intro s' hne
          by_cases hge : matchedCount p s ≤ matchedCount p s'
          · -- `s'` agrees with the whole matched run
            by_cases hlen : s'.length = matchedCount p s
            · -- `s'` ends at the split point: it reads the intermediate's
              -- (empty) data; before the split it was a partial match
              have hmeq : matchedCount p s' = matchedCount p s := by
                have := matchedCount_le_right p s'
                omega
              have htke : comparePrefixes true (p.take (matchedCount p s)) s' =
                  (.exact_match, matchedCount (p.take (matchedCount p s)) s') := by
                apply compareT_of_exact
                · rw [matchedCount_take_left, htklen]
                  omega
                · rw [htklen]
                  exact hlen
              rw [getAux_exact htke,
                getAux_miss (Or.inr (compareT_of_split (by omega) (by omega)))]
            · -- `s'` continues past the split point
              have hslt' : matchedCount p s < s'.length := by
                have := matchedCount_le_right p s'
                omega
              have hmtk' : matchedCount (p.take (matchedCount p s)) s' =
                  matchedCount p s := by
                rw [matchedCount_take_left]
                omega
              have htk' : comparePrefixes true (p.take (matchedCount p s)) s' =
                  (.prefix_full_match, matchedCount p s) := by
                have h := compareT_of_full (p := p.take (matchedCount p s)) (s := s')
                  (by rw [hmtk', htklen]) (by rw [htklen]; exact hslt')
                rw [hmtk'] at h
                exact h
              by_cases hgt : matchedCount p s < matchedCount p s'
              · -- `s'` still follows the original prefix: it descends into
                -- the reattached current node and reads the old subtree
                have hc' : (s'.drop (matchedCount p s)).headI =
                    (p.drop (matchedCount p s)).headI :=
                  (matchedCount_headI_eq hgt).symm
                rw [getAux_full_some htk' (by
                  rw [hc']
                  rw [lookupChild_setChild_ne _ _ (fun h => hcpcs (h.symm)) _ _]
                  exact lookupChild_setChild_self _ _ _)]
                exact getAux_split_descend hlt h0 (le_of_lt hgt)
              · -- `s'` leaves the prefix exactly at the split point
                have hmeq : matchedCount p s' = matchedCount p s := by omega
                have hcne' : (p.drop (matchedCount p s)).headI ≠
                    (s'.drop (matchedCount p s)).headI := by
                  have h := matchedCount_ne p s' (by omega) (by omega)
                  rw [hmeq] at h
                  exact h
                have hold : getAux true (.mk d p ch i) s' = none :=
                  getAux_miss (Or.inr (compareT_of_split (by omega) (by omega)))
                rw [hold]
                by_cases hcs : (s'.drop (matchedCount p s)).headI =
                    (s.drop (matchedCount p s)).headI
                · -- `s'` turns into the fresh leaf's branch but cannot match
                  -- the leaf's whole suffix
                  rw [getAux_full_some htk' (by rw [hcs]; exact lookupChild_setChild_self _ _ _)]
                  have hdne : s'.drop (matchedCount p s) ≠ s.drop (matchedCount p s) := by
                    apply drop_ne_of_ne_of_take_eq hne
                    have h1 : s'.take (matchedCount p s) = p.take (matchedCount p s) := by
                      have h := matchedCount_take p s'
                      rw [hmeq] at h
                      exact h.symm
                    rw [h1, htake]
                  rcases compareT_cases (s.drop (matchedCount p s)) (s'.drop (matchedCount p s))
                    with ⟨hc'', heq⟩ | ⟨hc'', _, _⟩ | ⟨hc'', _, _⟩ | ⟨hc'', _, _⟩
                  · exact absurd heq.symm hdne
                  · exact getAux_full_none hc'' (lookupChild_nil _)
                  · exact getAux_miss (Or.inl hc'')
                  · exact getAux_miss (Or.inr hc'')
                · -- `s'` matches neither child of the intermediate node
                  rw [getAux_full_none htk' (by
                    rw [lookupChild_setChild_ne _ _ (fun h => hcs h.symm) _ _,
                      lookupChild_setChild_ne _ _ hcne' _ _]
                    exact lookupChild_nil _)]
          · -- `s'` disagrees with the matched run: a shorter match, the same
            -- before and after the split
            have hlt2 : matchedCount p s' < matchedCount p s := by omega
            have hmtk2 : matchedCount (p.take (matchedCount p s)) s' =
                matchedCount p s' := by
              rw [matchedCount_take_left]
              omega
            by_cases h0' : matchedCount p s' = 0
            · have hnew : comparePrefixes true (p.take (matchedCount p s)) s' =
                  (.no_match, 0) := by
                apply compareT_of_no
                · rw [hmtk2]
                  exact h0'
                · exact take_ne_nil hpne h0
              rw [getAux_miss (Or.inl hnew),
                getAux_miss (Or.inl (compareT_of_no h0' hpne))]
            · have hnew : comparePrefixes true (p.take (matchedCount p s)) s' =
                  (.partial_match, matchedCount (p.take (matchedCount p s)) s') := by
                apply compareT_of_split
                · rw [hmtk2]
                  omega
                · rw [hmtk2, htklen]
                  omega
              rw [getAux_miss (Or.inr hnew),
                getAux_miss (Or.inr (compareT_of_split (by omega) (by omega)))]
      · -- the key ends exactly at the split point: the intermediate node
        -- receives the value
        rw [insertAux_partial_zero hc hs]
        have hseq : s.length = matchedCount p s := by
          have := List.length_drop (matchedCount p s) s
          omega
        have hsp : s = p.take (matchedCount p s) := by
          rw [htake, ← hseq, List.take_length]
        constructor
        · rw [getAux_exact (compareT_of_exact (p := p.take (matchedCount p s)) (s := s)
            (by rw [matchedCount_take_left, htklen]; omega) (by rw [htklen]; omega))]
        · intro s' hne
          by_cases hge : matchedCount p s ≤ matchedCount p s'
          · by_cases hlen : s'.length = matchedCount p s
            · -- `s'` would end at the intermediate node: then it equals `s`
              exfalso
              apply hne
              have hmeq : matchedCount p s' = matchedCount p s := by
                have := matchedCount_le_right p s'
                omega
              have h1 : s'.take (matchedCount p s) = p.take (matchedCount p s) := by
                have h := matchedCount_take p s'
                rw [hmeq] at h
                exact h.symm
              rw [hsp, ← h1, ← hlen, List.take_length]
            · have hslt' : matchedCount p s < s'.length := by
                have := matchedCount_le_right p s'
                omega
              have hmtk' : matchedCount (p.take (matchedCount p s)) s' =
                  matchedCount p s := by
                rw [matchedCount_take_left]
                omega
              have htk' : comparePrefixes true (p.take (matchedCount p s)) s' =
                  (.prefix_full_match, matchedCount p s) := by
                have h := compareT_of_full (p := p.take (matchedCount p s)) (s := s')
                  (by rw [hmtk', htklen]) (by rw [htklen]; exact hslt')
                rw [hmtk'] at h
                exact h
              by_cases hgt : matchedCount p s < matchedCount p s'
              · have hc' : (s'.drop (matchedCount p s)).headI =
                    (p.drop (matchedCount p s)).headI :=
                  (matchedCount_headI_eq hgt).symm
                rw [getAux_full_some htk' (by rw [hc']; exact lookupChild_setChild_self _ _ _)]
                exact getAux_split_descend hlt h0 (le_of_lt hgt)
              · have hmeq : matchedCount p s' = matchedCount p s := by omega
                have hcne' : (p.drop (matchedCount p s)).headI ≠
                    (s'.drop (matchedCount p s)).headI := by
                  have h := matchedCount_ne p s' (by omega) (by omega)
                  rw [hmeq] at h
                  exact h
                rw [getAux_full_none htk' (by
                    rw [lookupChild_setChild_ne _ _ hcne' _ _]
                    exact lookupChild_nil _),
                  getAux_miss (Or.inr (compareT_of_split (by omega) (by omega)))]
          · have hlt2 : matchedCount p s' < matchedCount p s := by omega
            have hmtk2 : matchedCount (p.take (matchedCount p s)) s' =
                matchedCount p s' := by
              rw [matchedCount_take_left]
              omega
            by_cases h0' : matchedCount p s' = 0
            · have hnew : comparePrefixes true (p.take (matchedCount p s)) s' =
                  (.no_match, 0) := by
                apply compareT_of_no
                · rw [hmtk2]
                  exact h0'
                · exact take_ne_nil hpne h0
              rw [getAux_miss (Or.inl hnew),
                getAux_miss (Or.inl (compareT_of_no h0' hpne))]
            · have hnew : comparePrefixes true (p.take (matchedCount p s)) s' =
                  (.partial_match, matchedCount (p.take (matchedCount p s)) s') := by
                apply compareT_of_split
                · rw [hmtk2]
                  omega
                · rw [hmtk2, htklen]
                  omega
              rw [getAux_miss (Or.inr hnew),
                getAux_miss (Or.inr (compareT_of_split (by omega) (by omega)))]

/-- One `insert` call preserves structural well-formedness, keeps the root's
(empty) prefix head, preserves compaction, and always tracks a node. -/
theorem insertAux_inv (k : List Char) (v : T) :
    ∀ (n : node T), wfb n = true → ∀ (s : List Char) (f : Nat), agree n s →
      wfb (insertAux k v n s f).n = true ∧
      ((insertAux k v n s f).n.pre = [] ↔ n.pre = []) ∧
      (insertAux k v n s f).n.pre.headI = n.pre.headI ∧
      (compactB n = true → compactB (insertAux k v n s f).n = true) ∧
      (n.pre = [] → compactL n.children = true →
        compactL (insertAux k v n s f).n.children = true) ∧
      (insertAux k v n s f).tracked.isSome = true := by
  intro n
  induction n using node.inductChildren with
  | step d p ch i IH =>
    intro hw s f ha
    have hwL : wfbL ch = true := by rw [wfb_mk] at hw; exact hw
    rcases compareT_cases p s with ⟨hc, hps⟩ | ⟨hc, hm, hlt⟩ | ⟨hc, hm0, hpne⟩ | ⟨hc, h0, hlt⟩
    · -- exact_match
      rw [insertAux_exact hc]
      refine ⟨by rw [wfb_mk]; exact hwL, Iff.rfl, rfl, ?_, fun _ h => h, rfl⟩
      intro hcomp
      rw [compactB_mk] at hcomp ⊢
      simp only [Bool.and_eq_true] at hcomp ⊢
      exact ⟨by simp, hcomp.2⟩
    · -- prefix_full_match
      have hsne : s.drop (matchedCount p s) ≠ [] := drop_ne_nil hlt
      cases hl : lookupChild ((s.drop (matchedCount p s)).headI) ch with
      | some child =>
        rw [insertAux_full_some hc hl]
        obtain ⟨hcne, hch, hcw⟩ := wfbL_lookup hwL hl
        have hagree : agree child (s.drop (matchedCount p s)) :=
          fun _ => ⟨hsne, by rw [hch]⟩
        obtain ⟨ih1, ih2, ih3, ih4, _, ih6⟩ :=
          IH _ (lookupChild_mem hl) hcw (s.drop (matchedCount p s)) f hagree
        refine ⟨?_, Iff.rfl, rfl, ?_, ?_, ih6⟩
        · rw [wfb_mk]
          exact wfbL_setChild hwL (fun h => hcne (ih2.mp h)) (by rw [ih3, hch]) ih1
        · intro hcomp
          rw [compactB_mk] at hcomp ⊢
          simp only [Bool.and_eq_true] at hcomp ⊢
          obtain ⟨hloc, hcl⟩ := hcomp
          constructor
          · rw [setChild_length_of_some hl]
            exact hloc
          · exact compactL_setChild hcl (ih4 (compactL_lookup hcl hl))
        · intro _ hcl
          simp only [node.children_mk]
          exact compactL_setChild hcl (ih4 (compactL_lookup hcl hl))
      | none =>
        rw [insertAux_full_none hc hl]
        refine ⟨?_, Iff.rfl, rfl, ?_, ?_, rfl⟩
        · rw [wfb_mk]
          exact wfbL_setChild hwL hsne rfl (by rw [wfb_mk]; exact wfbL_nil)
        · intro hcomp
          rw [compactB_mk] at hcomp ⊢
          simp only [Bool.and_eq_true] at hcomp ⊢
          obtain ⟨hloc, hcl⟩ := hcomp
          constructor
          · rw [setChild_length_of_none hl]
            simp only [Bool.or_eq_true, decide_eq_true_eq] at hloc ⊢
            rcases hloc with h | h
            · exact Or.inl h
            · exact Or.inr (by omega)
          · refine compactL_setChild hcl ?_
            rw [compactB_mk]
            simp
        · intro _ hcl
          simp only [node.children_mk]
          refine compactL_setChild hcl ?_
          rw [compactB_mk]
          simp
    · -- no_match unreachable
      exfalso
      obtain ⟨hsnil, hhead⟩ := ha hpne
      have := matchedCount_pos p s hpne hsnil hhead
      omega
    · -- partial_match
      have hmle : matchedCount p s ≤ s.length := matchedCount_le_right p s
      have hpne : p ≠ [] := by
        intro hnil
        rw [hnil] at hlt
        simp at hlt
      have hdne : p.drop (matchedCount p s) ≠ [] := drop_ne_nil hlt
      have hcurwf : wfb (node.mk d (p.drop (matchedCount p s)) ch i) = true := by
        rw [wfb_mk]
        exact hwL
      have hcurcomp : compactB (node.mk d p ch i) = true →
          compactB (node.mk d (p.drop (matchedCount p s)) ch i) = true := by
        intro hcomp
        rw [compactB_mk] at hcomp ⊢
        exact hcomp
      by_cases hs : 0 < (s.drop (matchedCount p s)).length
      · rw [insertAux_partial_pos hc hs]
        have hslt : matchedCount p s < s.length := by
          have := List.length_drop (matchedCount p s) s
          omega
        have hsdne : s.drop (matchedCount p s) ≠ [] := drop_ne_nil hslt
        have hcpcs : (p.drop (matchedCount p s)).headI ≠
            (s.drop (matchedCount p s)).headI := matchedCount_ne p s hlt hslt
        have hlku : lookupChild ((s.drop (matchedCount p s)).headI)
            (setChild ((p.drop (matchedCount p s)).headI)
              (node.mk d (p.drop (matchedCount p s)) ch i) []) = none := by
          rw [lookupChild_setChild_ne _ _ hcpcs _ _]
          exact lookupChild_nil _
        refine ⟨?_, ?_, headI_take h0, ?_, fun h => absurd h hpne, rfl⟩
        · rw [wfb_mk]
          refine wfbL_setChild ?_ hsdne rfl (by rw [wfb_mk]; exact wfbL_nil)
          exact wfbL_setChild wfbL_nil hdne rfl hcurwf
        · constructor
          · intro h
            exact absurd h (take_ne_nil hpne h0)
          · intro h
            exact absurd h hpne
        · intro hcomp
          rw [compactB_mk]
          simp only [Bool.and_eq_true]
          constructor
          · simp only [Bool.or_eq_true, decide_eq_true_eq]
            right
            rw [setChild_length_of_none hlku]
            simp [setChild]
          · refine compactL_setChild (compactL_setChild compactL_nil (hcurcomp hcomp)) ?_
            rw [compactB_mk]
            simp
      · rw [insertAux_partial_zero hc hs]
        refine ⟨?_, ?_, headI_take h0, ?_, fun h => absurd h hpne, rfl⟩
        · rw [wfb_mk]
          exact wfbL_setChild wfbL_nil hdne rfl hcurwf
        · constructor
          · intro h
            exact absurd h (take_ne_nil hpne h0)
          · intro h
            exact absurd h hpne
        · intro hcomp
          rw [compactB_mk]
          simp only [Bool.and_eq_true]
          constructor
          · simp
          · exact compactL_setChild compactL_nil (hcurcomp hcomp)

/-! ### Unfolding equations for `goiAux` -/

theorem goiAux_no [Inhabited T] {k : List Char} {d : Option T} {p : List Char}
    {ch : List (Char × node T)} {i f : Nat} {s : List Char} {m : Nat}
    (hc : comparePrefixes true p s = (.no_match, m)) :
    goiAux k (.mk d p ch i) s f = ⟨.mk d p ch i, none, false, f, default⟩ := by
  rw [goiAux, hc]

theorem goiAux_exact_none [Inhabited T] {k : List Char} {p : List Char}
    {ch : List (Char × node T)} {i f : Nat} {s : List Char} {m : Nat}
    (hc : comparePrefixes true p s = (.exact_match, m)) :
    goiAux k (.mk (none : Option T) p ch i) s f =
      ⟨.mk (some default) p ch i, some i, true, f, default⟩ := by
  rw [goiAux, hc]
  rfl

theorem goiAux_exact_some [Inhabited T] {k : List Char} {w : T} {p : List Char}
    {ch : List (Char × node T)} {i f : Nat} {s : List Char} {m : Nat}
    (hc : comparePrefixes true p s = (.exact_match, m)) :
    goiAux k (.mk (some w) p ch i) s f =
      ⟨.mk (some w) p ch i, some i, false, f, w⟩ := by
  rw [goiAux, hc]
  rfl

theorem goiAux_full_some [Inhabited T] {k : List Char} {d : Option T} {p : List Char}
    {ch : List (Char × node T)} {i f : Nat} {s : List Char} {m : Nat} {child : node T}
    (hc : comparePrefixes true p s = (.prefix_full_match, m))
    (hl : lookupChild ((s.drop m).headI) ch = some child) :
    goiAux k (.mk d p ch i) s f =
      ⟨.mk d p (setChild ((s.drop m).headI) (goiAux k child (s.drop m) f).n ch) i,
        (goiAux k child (s.drop m) f).tracked,
        (goiAux k child (s.drop m) f).inc,
        (goiAux k child (s.drop m) f).next,
        (goiAux k child (s.drop m) f).ret⟩ := by
  rw [goiAux, hc]
  split <;> rename_i hsplit
  · simp at hsplit
  · simp at hsplit
  · simp only [Prod.mk.injEq, true_and] at hsplit
    subst hsplit
    split
    · rename_i child' h'
      rw [hl] at h'
      injection h' with h''
      subst h''
      rfl
    · rename_i h'
      rw [hl] at h'
      cases h'
  · simp at hsplit

theorem goiAux_full_none [Inhabited T] {k : List Char} {d : Option T} {p : List Char}
    {ch : List (Char × node T)} {i f : Nat} {s : List Char} {m : Nat}
    (hc : comparePrefixes true p s = (.prefix_full_match, m))
    (hl : lookupChild ((s.drop m).headI) ch = none) :
    goiAux k (.mk d p ch i) s f =
      ⟨.mk d p (setChild ((s.drop m).headI) (.mk (some default) (s.drop m) [] f) ch) i,
        some f, true, f + 1, default⟩ := by
  rw [goiAux, hc]
  split <;> rename_i hsplit
  · simp at hsplit
  · simp at hsplit
  · simp only [Prod.mk.injEq, true_and] at hsplit
    subst hsplit
    split
    · rename_i child' h'
      rw [hl] at h'
      cases h'
    · rfl
  · simp at hsplit

theorem goiAux_partial_pos [Inhabited T] {k : List Char} {d : Option T} {p : List Char}
    {ch : List (Char × node T)} {i f : Nat} {s : List Char} {m : Nat}
    (hc : comparePrefixes true p s = (.partial_match, m))
    (hs : 0 < (s.drop m).length) :
    goiAux k (.mk d p ch i) s f =
      ⟨.mk none (p.take m)
          (setChild ((s.drop m).headI) (.mk (some default) (s.drop m) [] (f + 1))
            (setChild ((p.drop m).headI) (.mk d (p.drop m) ch i) [])) f,
        some (f + 1), true, f + 2, default⟩ := by
  rw [goiAux, hc]
  split <;> rename_i hsplit
  · simp at hsplit
  · simp at hsplit
  · simp at hsplit
  · simp only [Prod.mk.injEq, true_and] at hsplit
    subst hsplit
    rw [if_pos hs]

theorem goiAux_partial_zero [Inhabited T] {k : List Char} {d : Option T} {p : List Char}
    {ch : List (Char × node T)} {i f : Nat} {s : List Char} {m : Nat}
    (hc : comparePrefixes true p s = (.partial_match, m))
    (hs : ¬ 0 < (s.drop m).length) :
    goiAux k (.mk d p ch i) s f =
      ⟨.mk (some default) (p.take m)
          (setChild ((p.drop m).headI) (.mk d (p.drop m) ch i) []) f,
        some f, true, f + 1, default⟩ := by
  rw [goiAux, hc]
  split <;> rename_i hsplit
  · simp at hsplit
  · simp at hsplit
  · simp at hsplit
  · simp only [Prod.mk.injEq, true_and] at hsplit
    subst hsplit
    rw [if_neg hs]

/-- `operator[]` reshapes the tree exactly as `insert` with the value the
call ends up returning, and tracks the same node. -/
theorem goiAux_eq_insertAux [Inhabited T] (k : List Char) :
    ∀ (n : node T) (s : List Char) (f : Nat),
      (goiAux k n s f).n = (insertAux k ((goiAux k n s f).ret) n s f).n ∧
      (goiAux k n s f).tracked = (insertAux k ((goiAux k n s f).ret) n s f).tracked := by
  intro n
  induction n using node.inductChildren with
  | step d p ch i IH =>
    intro s f
    rcases compareT_cases p s with ⟨hc, _⟩ | ⟨hc, _, _⟩ | ⟨hc, _, _⟩ | ⟨hc, _, _⟩
    · cases d with
      | none =>
        rw [goiAux_exact_none hc]
        rw [insertAux_exact hc]
        exact ⟨rfl, rfl⟩
      | some w =>
        rw [goiAux_exact_some hc]
        rw [insertAux_exact hc]
        exact ⟨rfl, rfl⟩
    · cases hl : lookupChild ((s.drop (matchedCount p s)).headI) ch with
      | some child =>
        rw [goiAux_full_some hc hl]
        rw [insertAux_full_some hc hl]
        obtain ⟨ih1, ih2⟩ := IH _ (lookupChild_mem hl) (s.drop (matchedCount p s)) f
        constructor <;> simp [ih1, ih2]
      | none =>
        rw [goiAux_full_none hc hl]
        rw [insertAux_full_none hc hl]
        exact ⟨rfl, rfl⟩
    · rw [goiAux_no hc]
      rw [insertAux_no hc]
      exact ⟨rfl, rfl⟩
    · by_cases hs : 0 < (s.drop (matchedCount p s)).length
      · rw [goiAux_partial_pos hc hs]
        rw [insertAux_partial_pos hc hs]
        exact ⟨rfl, rfl⟩
      · rw [goiAux_partial_zero hc hs]
        rw [insertAux_partial_zero hc hs]
        exact ⟨rfl, rfl⟩

theorem matchedCount_eq_zero {p s : List Char} (hp : p ≠ []) (hs : s ≠ [])
    (h : p.headI ≠ s.headI) : matchedCount p s = 0 := by
  cases p with
  | nil => exact absurd rfl hp
  | cons a p =>
    cases s with
    | nil => exact absurd rfl hs
    | cons b s =>
      simp only [List.headI] at h
      simp [matchedCount, h]

/-- Erase's merge step is invisible to lookups: a node holding the
concatenated prefix and the child's content resolves every key like the
two-node chain (parent without data, sole child) it replaces. -/
theorem getAux_merge {d : Option T} {pre : List Char} {c1 : Char}
    {child : node T} {i : Nat}
    (hpre : pre ≠ []) (hcp : child.pre ≠ []) (hc1 : child.pre.headI = c1)
    (s' : List Char) (hor : d = none ∨ s' ≠ pre) :
    getAux true (.mk child.data (pre ++ child.pre) child.children child.id) s' =
      getAux true (.mk d pre [(c1, child)] i) s' := by
  obtain ⟨cd, cpre, cch, cid⟩ := child
  simp only [node.data_mk, node.pre_mk, node.children_mk, node.id_mk] at hcp hc1 ⊢
  have hfull : (pre ++ cpre).length = pre.length + cpre.length := by
    rw [List.length_append]
  have hcplen : 0 < cpre.length := List.length_pos.mpr hcp
  have hplen : 0 < pre.length := List.length_pos.mpr hpre
  rcases compareT_cases pre s' with ⟨hc', hps'⟩ | ⟨hc', hm', hlt'⟩ |
    ⟨hc', hm0', hpne'⟩ | ⟨hc', h0', hlt''⟩
  · -- `s' = pre`: the old parent answers its own data, the merged node
    -- mismatches inside its longer prefix
    subst hps'
    rw [getAux_exact hc']
    have hd : d = none := by
      rcases hor with h | h
      · exact h
      · exact absurd rfl h
    subst hd
    have hma : matchedCount (pre ++ cpre) pre = pre.length := by
      rw [matchedCount_append_full pre cpre pre (matchedCount_self pre),
        List.drop_length]
      simp [matchedCount]
    refine getAux_miss (Or.inr (compareT_of_split ?_ ?_)) |>.trans rfl
    · rw [hma]
      omega
    · rw [hma, hfull]
      omega
  · -- the key runs past the old parent's prefix
    have hsfx : s'.drop pre.length ≠ [] := drop_ne_nil (by omega)
    have hma : matchedCount (pre ++ cpre) s' =
        pre.length + matchedCount cpre (s'.drop pre.length) :=
      matchedCount_append_full pre cpre s' hm'
    by_cases hcc : (s'.drop (matchedCount pre s')).headI = c1
    · -- the key picks the sole child
      have hlk : lookupChild ((s'.drop (matchedCount pre s')).headI)
          [(c1, node.mk cd cpre cch cid)] = some (node.mk cd cpre cch cid) := by
        rw [hcc]
        simp [lookupChild]
      rw [getAux_full_some hc' hlk, hm']
      rw [hm'] at hcc
      have hm2pos : 0 < matchedCount cpre (s'.drop pre.length) :=
        matchedCount_pos _ _ hcp hsfx (by rw [hc1, hcc])
      rcases compareT_cases cpre (s'.drop pre.length) with ⟨hc2, hps2⟩ |
        ⟨hc2, hm2, hlt2⟩ | ⟨hc2, hm02, _⟩ | ⟨hc2, h02, hlt2⟩
      · -- the key ends exactly at the child
        rw [getAux_exact hc2]
        have hslen : s'.length = pre.length + cpre.length := by
          have h1 : (s'.drop pre.length).length = s'.length - pre.length :=
            List.length_drop _ _
          rw [← hps2] at h1
          omega
        have hmaE : matchedCount (pre ++ cpre) s' = (pre ++ cpre).length := by
          rw [hma, hps2, matchedCount_self, List.length_append]
        rw [getAux_exact (compareT_of_exact hmaE (by rw [hfull]; omega))]
      · -- the key runs past the child too: both sides descend into the same
        -- grandchild with the same remaining suffix
        have hmaF : matchedCount (pre ++ cpre) s' = (pre ++ cpre).length := by
          rw [hma, hfull, hm2]
        have hlen2 : (s'.drop pre.length).length = s'.length - pre.length :=
          List.length_drop _ _
        have hcF : comparePrefixes true (pre ++ cpre) s' =
            (.prefix_full_match, matchedCount (pre ++ cpre) s') :=
          compareT_of_full hmaF (by rw [hfull]; omega)
        have hdd : s'.drop (matchedCount (pre ++ cpre) s') =
            (s'.drop pre.length).drop (matchedCount cpre (s'.drop pre.length)) := by
          rw [List.drop_drop, hma]
        cases hg : lookupChild (((s'.drop pre.length).drop
            (matchedCount cpre (s'.drop pre.length))).headI) cch with
        | some g =>
          rw [getAux_full_some hc2 hg,
            getAux_full_some hcF (by rw [hdd]; exact hg), hdd]
        | none =>
          rw [getAux_full_none hc2 hg,
            getAux_full_none hcF (by rw [hdd]; exact hg)]
      · omega
      · -- the key leaves the child's prefix inside it: partial on both views
        rw [getAux_miss (Or.inr hc2)]
        refine getAux_miss (Or.inr (compareT_of_split ?_ ?_))
        · rw [hma]
          omega
        · rw [hma, hfull]
          omega
    · -- the key picks a different branch than the sole child: nothing there,
      -- and the merged prefix mismatches right after the parent segment
      rw [getAux_full_none hc' (by
        simp only [lookupChild]
        rw [if_neg (fun h => hcc (h.symm))])]
      have hm20 : matchedCount cpre (s'.drop pre.length) = 0 := by
        refine matchedCount_eq_zero hcp hsfx ?_
        rw [hc1]
        rw [hm'] at hcc
        exact fun h => hcc h.symm
      refine getAux_miss (Or.inr (compareT_of_split ?_ ?_))
      · rw [hma, hm20]
        omega
      · rw [hma, hm20, hfull]
        omega
  · -- first characters differ: both views miss immediately
    rw [getAux_miss (Or.inl hc')]
    have hma : matchedCount (pre ++ cpre) s' = matchedCount pre s' := by
      refine matchedCount_append_lt pre cpre s' ?_
      omega
    refine getAux_miss (Or.inl (compareT_of_no ?_ ?_))
    · rw [hma, hm0']
    · simp [hpre]
  · -- the key leaves the parent's prefix inside it: partial on both views
    rw [getAux_miss (Or.inr hc')]
    have hma : matchedCount (pre ++ cpre) s' = matchedCount pre s' := by
      refine matchedCount_append_lt pre cpre s' ?_
      omega
    refine getAux_miss (Or.inr (compareT_of_split ?_ ?_))
    · rw [hma]
      omega
    · rw [hma, hfull]
      omega

/-! ### Unfolding equations for `eraseAux` -/

theorem eraseAux_miss {d : Option T} {p : List Char}
    {ch : List (Char × node T)} {i : Nat} {s : List Char} {m : Nat}
    (hc : comparePrefixes true p s = (.no_match, m) ∨
      comparePrefixes true p s = (.partial_match, m)) :
    eraseAux (.mk d p ch i) s = ⟨.keep (.mk d p ch i), none⟩ := by
  rcases hc with hc | hc <;> rw [eraseAux, hc]

theorem eraseAux_exact_nil {d : Option T} {p : List Char}
    {i : Nat} {s : List Char} {m : Nat}
    (hc : comparePrefixes true p s = (.exact_match, m)) :
    eraseAux (.mk d p ([] : List (Char × node T)) i) s = ⟨.drop, some i⟩ := by
  rw [eraseAux, hc]
  split <;> rename_i hsplit
  · simp at hsplit
  · simp at hsplit
  · simp
  · simp at hsplit

theorem eraseAux_exact_one {d : Option T} {p : List Char} {c1 : Char}
    {child : node T} {i : Nat} {s : List Char} {m : Nat}
    (hc : comparePrefixes true p s = (.exact_match, m)) :
    eraseAux (.mk d p [(c1, child)] i) s =
      ⟨.keep (.mk child.data (p ++ child.pre) child.children child.id), some i⟩ := by
  rw [eraseAux, hc]
  split <;> rename_i hsplit
  · simp at hsplit
  · simp at hsplit
  · simp
  · simp at hsplit

theorem eraseAux_exact_many {d : Option T} {p : List Char}
    {x y : Char × node T} {rest : List (Char × node T)} {i : Nat}
    {s : List Char} {m : Nat}
    (hc : comparePrefixes true p s = (.exact_match, m)) :
    eraseAux (.mk d p (x :: y :: rest) i) s =
      ⟨.keep (.mk none p (x :: y :: rest) i), some i⟩ := by
  rw [eraseAux, hc]
  split <;> rename_i hsplit
  · simp at hsplit
  · simp at hsplit
  · simp
  · simp at hsplit

theorem eraseAux_full_none {d : Option T} {p : List Char}
    {ch : List (Char × node T)} {i : Nat} {s : List Char} {m : Nat}
    (hc : comparePrefixes true p s = (.prefix_full_match, m))
    (hl : lookupChild ((s.drop m).headI) ch = none) :
    eraseAux (.mk d p ch i) s = ⟨.keep (.mk d p ch i), none⟩ := by
  rw [eraseAux, hc]
  split <;> rename_i hsplit
  · simp at hsplit
  · simp at hsplit
  · simp at hsplit
  · simp only [Prod.mk.injEq, true_and] at hsplit
    subst hsplit
    split
    · rfl
    · rename_i child h'
      rw [hl] at h'
      cases h'

theorem eraseAux_full_keep {d : Option T} {p : List Char}
    {ch : List (Char × node T)} {i : Nat} {s : List Char} {m : Nat}
    {child n' : node T}
    (hc : comparePrefixes true p s = (.prefix_full_match, m))
    (hl : lookupChild ((s.drop m).headI) ch = some child)
    (hk : (eraseAux child (s.drop m)).out = .keep n') :
    eraseAux (.mk d p ch i) s =
      ⟨.keep (.mk d p (setChild ((s.drop m).headI) n' ch) i),
        (eraseAux child (s.drop m)).touched⟩ := by
  rw [eraseAux, hc]
  split <;> rename_i hsplit
  · simp at hsplit
  · simp at hsplit
  · simp at hsplit
  · simp only [Prod.mk.injEq, true_and] at hsplit
    subst hsplit
    split
    · rename_i h'
      rw [hl] at h'
      cases h'
    · rename_i child' h'
      rw [hl] at h'
      injection h' with h''
      subst h''
      simp only [hk]

theorem eraseAux_full_drop_keep {d : Option T} {p : List Char}
    {ch : List (Char × node T)} {i : Nat} {s : List Char} {m : Nat}
    {child : node T}
    (hc : comparePrefixes true p s = (.prefix_full_match, m))
    (hl : lookupChild ((s.drop m).headI) ch = some child)
    (hk : (eraseAux child (s.drop m)).out = .drop)
    (hcond : ¬ (d.isNone ∧ (removeChild ((s.drop m).headI) ch).length = 1)) :
    eraseAux (.mk d p ch i) s =
      ⟨.keep (.mk d p (removeChild ((s.drop m).headI) ch) i),
        (eraseAux child (s.drop m)).touched⟩ := by
  rw [eraseAux, hc]
  split <;> rename_i hsplit
  · simp at hsplit
  · simp at hsplit
  · simp at hsplit
  · simp only [Prod.mk.injEq, true_and] at hsplit
    subst hsplit
    split
    · rename_i h'
      rw [hl] at h'
      cases h'
    · rename_i child' h'
      rw [hl] at h'
      injection h' with h''
      subst h''
      simp only [hk]
      rw [if_neg hcond]

theorem eraseAux_full_drop_one {p : List Char}
    {ch : List (Char × node T)} {i : Nat} {s : List Char} {m : Nat}
    {child sole : node T} {c1 : Char}
    (hc : comparePrefixes true p s = (.prefix_full_match, m))
    (hl : lookupChild ((s.drop m).headI) ch = some child)
    (hk : (eraseAux child (s.drop m)).out = .drop)
    (hrm : removeChild ((s.drop m).headI) ch = [(c1, sole)]) :
    eraseAux (.mk (none : Option T) p ch i) s =
      ⟨.mergeUp (.mk none p [] i)
          (.mk sole.data (p ++ sole.pre) sole.children sole.id),
        (eraseAux child (s.drop m)).touched⟩ := by
  rw [eraseAux, hc]
  split <;> rename_i hsplit
  · simp at hsplit
  · simp at hsplit
  · simp at hsplit
  · simp only [Prod.mk.injEq, true_and] at hsplit
    subst hsplit
    split
    · rename_i h'
      rw [hl] at h'
      cases h'
    · rename_i child' h'
      rw [hl] at h'
      injection h' with h''
      subst h''
      simp only [hk]
      rw [if_pos ⟨rfl, by rw [hrm]; rfl⟩, hrm]
      rfl

theorem eraseAux_full_mergeUp {d : Option T} {p : List Char}
    {ch : List (Char × node T)} {i : Nat} {s : List Char} {m : Nat}
    {child p' merged : node T}
    (hc : comparePrefixes true p s = (.prefix_full_match, m))
    (hl : lookupChild ((s.drop m).headI) ch = some child)
    (hk : (eraseAux child (s.drop m)).out = .mergeUp p' merged) :
    eraseAux (.mk d p ch i) s =
      ⟨.keep (.mk d p
          (setChild merged.pre.headI merged
            (setChild ((s.drop m).headI) p' ch)) i),
        (eraseAux child (s.drop m)).touched⟩ := by
  rw [eraseAux, hc]
  split <;> rename_i hsplit
  · simp at hsplit
  · simp at hsplit
  · simp at hsplit
  · simp only [Prod.mk.injEq, true_and] at hsplit
    subst hsplit
    split
    · rename_i h'
      rw [hl] at h'
      cases h'
    · rename_i child' h'
      rw [hl] at h'
      injection h' with h''
      subst h''
      simp only [hk]

theorem wfb_children_eq (n : node T) : wfb n = wfbL n.children := by
  obtain ⟨d, p, ch, i⟩ := n
  rw [wfb_mk, node.children_mk]

theorem compactB_eq (n : node T) :
    compactB n =
      ((n.data.isSome || decide (2 ≤ n.children.length)) && compactL n.children) := by
  obtain ⟨d, p, ch, i⟩ := n
  rw [compactB_mk, node.data_mk, node.children_mk]

/-! ### The behaviour of one `erase` frame -/

/-- What an `erase` frame below the root does, by directive: a `keep`
replacement resolves every other key as before and stays well-formed and
compact with the same leading character; a `drop` node held nothing but the
erased key; a `mergeUp` merged node stands in for the whole subtree. -/
theorem eraseAux_spec :
    ∀ (n : node T), wfb n = true → n.pre ≠ [] → ∀ (s : List Char), agree n s →
      (∀ (n' : node T), (eraseAux n s).out = .keep n' →
        (∀ s', s' ≠ s → getAux true n' s' = getAux true n s') ∧
        wfb n' = true ∧ n'.pre ≠ [] ∧ n'.pre.headI = n.pre.headI ∧
        (compactB n = true → compactB n' = true)) ∧
      ((eraseAux n s).out = .drop →
        ∀ s', s' ≠ s → getAux true n s' = none) ∧
      (∀ (q merged : node T), (eraseAux n s).out = .mergeUp q merged →
        (∀ s', s' ≠ s → getAux true merged s' = getAux true n s') ∧
        wfb merged = true ∧ merged.pre ≠ [] ∧ merged.pre.headI = n.pre.headI ∧
        (compactB n = true → compactB merged = true)) := by
  intro n
  induction n using node.inductChildren with
  | step d p ch i IH =>
    intro hw hpne s ha
    have hwL : wfbL ch = true := by rw [wfb_mk] at hw; exact hw
    simp only [node.pre_mk] at hpne ⊢
    rcases compareT_cases p s with ⟨hc, hps⟩ | ⟨hc, hm, hlt⟩ | ⟨hc, hm0, hpn⟩ | ⟨hc, h0, hlt⟩
    · -- exact_match: this node's value is erased
      subst hps
      cases ch with
      | nil =>
        rw [eraseAux_exact_nil hc]
        refine ⟨?_, ?_, ?_⟩
        · intro n' hk
          cases hk
        · intro _ s' hne
          rcases compareT_cases p s' with ⟨hc', hps'⟩ | ⟨hc', _, _⟩ | ⟨hc', _, _⟩ | ⟨hc', _, _⟩
          · exact absurd hps'.symm hne
          · exact getAux_full_none hc' (lookupChild_nil _)
          · exact getAux_miss (Or.inl hc')
          · exact getAux_miss (Or.inr hc')
        · intro q merged hk
          cases hk
      | cons x rest =>
        obtain ⟨c1, child⟩ := x
        cases rest with
        | nil =>
          -- single child: merged replacement
          rw [eraseAux_exact_one hc]
          obtain ⟨hcne, hch, hcw⟩ := wfbL_lookup hwL
            (show lookupChild c1 [(c1, child)] = some child by simp [lookupChild])
          refine ⟨?_, ?_, ?_⟩
          · intro n' hk
            injection hk with hk
            subst hk
            refine ⟨?_, ?_, ?_, ?_, ?_⟩
            · intro s' hne
              exact getAux_merge hpne hcne hch s' (Or.inr hne)
            · rw [wfb_mk, ← wfb_children_eq]
              exact hcw
            · simp only [node.pre_mk]
              intro hnil
              exact hpne (List.append_eq_nil.mp hnil).1
            · simp only [node.pre_mk]
              exact headI_append hpne
            · intro hcomp
              rw [compactB_mk] at hcomp
              simp only [Bool.and_eq_true] at hcomp
              have hchild : compactB child = true := by
                have h2 := hcomp.2
                rw [compactL_cons] at h2
                simp only [Bool.and_eq_true] at h2
                exact h2.1
              rw [compactB_mk, ← compactB_eq]
              exact hchild
          · intro h
            cases h
          · intro q merged hk
            cases hk
        | cons y rest2 =>
          rw [eraseAux_exact_many hc]
          refine ⟨?_, ?_, ?_⟩
          · intro n' hk
            injection hk with hk
            subst hk
            refine ⟨?_, by rw [wfb_mk]; rw [wfb_mk] at hw; exact hw, hpne, rfl, ?_⟩
            · intro s' hne
              rcases compareT_cases p s' with ⟨hc', hps'⟩ | ⟨hc', _, _⟩ |
                ⟨hc', _, _⟩ | ⟨hc', _, _⟩
              · exact absurd hps'.symm hne
              · exact getAux_full_congr hc' rfl
              · rw [getAux_miss (Or.inl hc'), getAux_miss (Or.inl hc')]
              · rw [getAux_miss (Or.inr hc'), getAux_miss (Or.inr hc')]
            · intro hcomp
              rw [compactB_mk] at hcomp ⊢
              simp only [Bool.and_eq_true] at hcomp ⊢
              refine ⟨?_, hcomp.2⟩
              simp only [Bool.or_eq_true, decide_eq_true_eq]
              right
              simp
          · intro h
            cases h
          · intro q merged hk
            cases hk
    · -- prefix_full_match: descend
      have hsne : s.drop (matchedCount p s) ≠ [] := drop_ne_nil hlt
      cases hl : lookupChild ((s.drop (matchedCount p s)).headI) ch with
      | none =>
        rw [eraseAux_full_none hc hl]
        refine ⟨?_, ?_, ?_⟩
        · intro n' hk
          injection hk with hk
          subst hk
          exact ⟨fun s' _ => rfl, hw, hpne, rfl, fun h => h⟩
        · intro h
          cases h
        · intro q merged hk
          cases hk
      | some child =>
        obtain ⟨hcne, hch, hcw⟩ := wfbL_lookup hwL hl
        have hagree : agree child (s.drop (matchedCount p s)) :=
          fun _ => ⟨hsne, by rw [hch]⟩
        obtain ⟨ihK, ihD, ihM⟩ := IH _ (lookupChild_mem hl) hcw hcne
          (s.drop (matchedCount p s)) hagree
        have hdrop_ne : ∀ s', s' ≠ s → matchedCount p s' = matchedCount p s →
            s'.drop (matchedCount p s) ≠ s.drop (matchedCount p s) := by
          intro s' hne hmeq
          apply drop_ne_of_ne_of_take_eq hne
          have h1 : s'.take (matchedCount p s) = p.take (matchedCount p s) := by
            have h := matchedCount_take p s'
            rw [hmeq] at h
            exact h.symm
          have h2 : s.take (matchedCount p s) = p.take (matchedCount p s) :=
            (matchedCount_take p s).symm
          rw [h1, h2]
        cases hout : (eraseAux child (s.drop (matchedCount p s))).out with
        | keep n' =>
          rw [eraseAux_full_keep hc hl hout]
          obtain ⟨ihF, ihW, ihP, ihH, ihC⟩ := ihK n' hout
          refine ⟨?_, ?_, ?_⟩
          · intro n₀ hk
            injection hk with hk
            subst hk
            refine ⟨?_, ?_, hpne, rfl, ?_⟩
            · intro s' hne
              rcases compareT_cases p s' with ⟨hc', hps'⟩ | ⟨hc', hm', hlt'⟩ |
                ⟨hc', _, _⟩ | ⟨hc', _, _⟩
              · rw [getAux_exact hc', getAux_exact hc']
              · have hmm : matchedCount p s' = matchedCount p s := by rw [hm', hm]
                rw [hmm] at hc'
                by_cases hcc : (s'.drop (matchedCount p s)).headI =
                    (s.drop (matchedCount p s)).headI
                · rw [getAux_full_some hc' (by rw [hcc]; exact lookupChild_setChild_self _ _ _),
                    getAux_full_some hc' (by rw [hcc]; exact hl)]
                  exact ihF _ (hdrop_ne s' hne hmm)
                · exact getAux_full_congr hc'
                    (lookupChild_setChild_ne _ _ (fun h => hcc h.symm) _ _)
              · rw [getAux_miss (Or.inl hc'), getAux_miss (Or.inl hc')]
              · rw [getAux_miss (Or.inr hc'), getAux_miss (Or.inr hc')]
            · rw [wfb_mk]
              exact wfbL_setChild hwL ihP (by rw [ihH, hch]) ihW
            · intro hcomp
              rw [compactB_mk] at hcomp ⊢
              simp only [Bool.and_eq_true] at hcomp ⊢
              refine ⟨?_, ?_⟩
              · rw [setChild_length_of_some hl]
                exact hcomp.1
              · exact compactL_setChild hcomp.2 (ihC (compactL_lookup hcomp.2 hl))
          · intro h
            cases h
          · intro q merged hk
            cases hk
        | drop =>
          have ihDrop := ihD hout
          by_cases hcond : d.isNone ∧
              (removeChild ((s.drop (matchedCount p s)).headI) ch).length = 1
          · -- the parent merges with its sole remaining child
            obtain ⟨hdn, hlen1⟩ := hcond
            obtain ⟨⟨c1, sole⟩, hrm⟩ := List.length_eq_one.mp hlen1
            have hd : d = none := by
              cases hd0 : d
              · rfl
              · rw [hd0] at hdn
                simp at hdn
            subst hd
            rw [eraseAux_full_drop_one hc hl hout hrm]
            have hwrm : wfbL (removeChild ((s.drop (matchedCount p s)).headI) ch) = true :=
              wfbL_removeChild hwL
            have hlks : lookupChild c1 (removeChild ((s.drop (matchedCount p s)).headI) ch)
                = some sole := by
              rw [hrm]
              simp [lookupChild]
            obtain ⟨hsne', hsh, hsw⟩ := wfbL_lookup hwrm hlks
            have hc1ne : c1 ≠ (s.drop (matchedCount p s)).headI := by
              intro hh
              have hnone := lookupChild_removeChild_self (c := (s.drop (matchedCount p s)).headI) hwL
              rw [hh, hnone] at hlks
              cases hlks
            have hlkch : lookupChild c1 ch = some sole := by
              rw [← lookupChild_removeChild_ne _ _ (fun h => hc1ne h.symm) _]
              exact hlks
            refine ⟨?_, ?_, ?_⟩
            · intro n' hk
              cases hk
            · intro h
              cases h
            · intro q merged hk
              injection hk with hk1 hk2
              subst hk2
              refine ⟨?_, ?_, ?_, ?_, ?_⟩
              · intro s' hne
                rw [getAux_merge (i := i) hpne hsne' hsh s' (Or.inl rfl)]
                rcases compareT_cases p s' with ⟨hps'1, hps'⟩ | ⟨hc', hm', hlt'⟩ |
                  ⟨hc', _, _⟩ | ⟨hc', _, _⟩
                · rw [getAux_exact hps'1, getAux_exact hps'1]
                · have hmm : matchedCount p s' = matchedCount p s := by rw [hm', hm]
                  rw [hmm] at hc'
                  by_cases hcc : (s'.drop (matchedCount p s)).headI =
                      (s.drop (matchedCount p s)).headI
                  · rw [getAux_full_none hc' (by
                        rw [hcc]
                        simp only [lookupChild]
                        rw [if_neg hc1ne]),
                      getAux_full_some hc' (by rw [hcc]; exact hl)]
                    exact (ihDrop _ (hdrop_ne s' hne hmm)).symm
                  · by_cases hcc1 : (s'.drop (matchedCount p s)).headI = c1
                    · rw [getAux_full_some hc'
                          (show lookupChild ((s'.drop (matchedCount p s)).headI)
                              [(c1, sole)] = some sole by
                            rw [hcc1]
                            simp [lookupChild]),
                        getAux_full_some hc' (by rw [hcc1]; exact hlkch)]
                    · rw [getAux_full_none hc' (by
                          simp only [lookupChild]
                          rw [if_neg (fun h => hcc1 h.symm)]),
                        getAux_full_none hc' (by
                          rw [← lookupChild_removeChild_ne
                            ((s'.drop (matchedCount p s)).headI) _
                            (fun h => hcc h.symm) ch, hrm]
                          simp only [lookupChild]
                          rw [if_neg (fun h => hcc1 h.symm)])]
                · rw [getAux_miss (Or.inl hc'), getAux_miss (Or.inl hc')]
                · rw [getAux_miss (Or.inr hc'), getAux_miss (Or.inr hc')]
              · rw [wfb_mk, ← wfb_children_eq]
                exact hsw
              · simp only [node.pre_mk]
                intro hnil
                exact hpne (List.append_eq_nil.mp hnil).1
              · simp only [node.pre_mk]
                exact headI_append hpne
              · intro hcomp
                rw [compactB_mk] at hcomp
                simp only [Bool.and_eq_true] at hcomp
                have hsole : compactB sole = true :=
                  compactL_lookup hcomp.2 hlkch
                rw [compactB_mk, ← compactB_eq]
                exact hsole
          · -- no merge: the child's slot is simply gone
            rw [eraseAux_full_drop_keep hc hl hout hcond]
            refine ⟨?_, ?_, ?_⟩
            · intro n₀ hk
              injection hk with hk
              subst hk
              refine ⟨?_, ?_, hpne, rfl, ?_⟩
              · intro s' hne
                rcases compareT_cases p s' with ⟨hc', hps'⟩ | ⟨hc', hm', hlt'⟩ |
                  ⟨hc', _, _⟩ | ⟨hc', _, _⟩
                · rw [getAux_exact hc', getAux_exact hc']
                · have hmm : matchedCount p s' = matchedCount p s := by rw [hm', hm]
                  rw [hmm] at hc'
                  by_cases hcc : (s'.drop (matchedCount p s)).headI =
                      (s.drop (matchedCount p s)).headI
                  · rw [getAux_full_none hc' (by
                        rw [hcc]
                        exact lookupChild_removeChild_self hwL),
                      getAux_full_some hc' (by rw [hcc]; exact hl)]
                    exact (ihDrop _ (hdrop_ne s' hne hmm)).symm
                  · exact getAux_full_congr hc'
                      (lookupChild_removeChild_ne _ _ (fun h => hcc h.symm) _)
                · rw [getAux_miss (Or.inl hc'), getAux_miss (Or.inl hc')]
                · rw [getAux_miss (Or.inr hc'), getAux_miss (Or.inr hc')]
              · rw [wfb_mk]
                exact wfbL_removeChild hwL
              · intro hcomp
                rw [compactB_mk] at hcomp ⊢
                simp only [Bool.and_eq_true] at hcomp ⊢
                refine ⟨?_, compactL_removeChild hcomp.2⟩
                simp only [Bool.or_eq_true, decide_eq_true_eq] at hcomp ⊢
                rcases hcomp.1 with hds | hlen
                · exact Or.inl hds
                · by_cases hdn : d.isNone
                  · right
                    have hrml := removeChild_length_of_some hl
                    have hne1 : (removeChild ((s.drop (matchedCount p s)).headI) ch).length ≠ 1 :=
                      fun hh => hcond ⟨hdn, hh⟩
                    omega
                  · left
                    cases hd0 : d
                    · rw [hd0] at hdn
                      simp at hdn
                    · rfl
            · intro h
              cases h
            · intro q merged hk
              cases hk
        | mergeUp q0 merged0 =>
          rw [eraseAux_full_mergeUp hc hl hout]
          obtain ⟨imF, imW, imP, imH, imC⟩ := ihM q0 merged0 hout
          have hmh : merged0.pre.headI = (s.drop (matchedCount p s)).headI := by
            rw [imH, hch]
          have hsetc : setChild merged0.pre.headI merged0
              (setChild ((s.drop (matchedCount p s)).headI) q0 ch) =
              setChild ((s.drop (matchedCount p s)).headI) merged0 ch := by
            rw [hmh, setChild_setChild]
          refine ⟨?_, ?_, ?_⟩
          · intro n₀ hk
            injection hk with hk
            subst hk
            rw [hsetc]
            refine ⟨?_, ?_, hpne, rfl, ?_⟩
            · intro s' hne
              rcases compareT_cases p s' with ⟨hc', hps'⟩ | ⟨hc', hm', hlt'⟩ |
                ⟨hc', _, _⟩ | ⟨hc', _, _⟩
              · rw [getAux_exact hc', getAux_exact hc']
              · have hmm : matchedCount p s' = matchedCount p s := by rw [hm', hm]
                rw [hmm] at hc'
                by_cases hcc : (s'.drop (matchedCount p s)).headI =
                    (s.drop (matchedCount p s)).headI
                · rw [getAux_full_some hc' (by rw [hcc]; exact lookupChild_setChild_self _ _ _),
                    getAux_full_some hc' (by rw [hcc]; exact hl)]
                  exact imF _ (hdrop_ne s' hne hmm)
                · exact getAux_full_congr hc'
                    (lookupChild_setChild_ne _ _ (fun h => hcc h.symm) _ _)
              · rw [getAux_miss (Or.inl hc'), getAux_miss (Or.inl hc')]
              · rw [getAux_miss (Or.inr hc'), getAux_miss (Or.inr hc')]
            · rw [wfb_mk]
              exact wfbL_setChild hwL imP (by rw [imH, hch]) imW
            · intro hcomp
              rw [compactB_mk] at hcomp ⊢
              simp only [Bool.and_eq_true] at hcomp ⊢
              refine ⟨?_, ?_⟩
              · rw [setChild_length_of_some hl]
                exact hcomp.1
              · exact compactL_setChild hcomp.2 (imC (compactL_lookup hcomp.2 hl))
          · intro h
            cases h
          · intro q merged hk
            cases hk
    · -- no_match is unreachable below a well-formed parent
      exfalso
      obtain ⟨hsnil, hhead⟩ := ha hpn
      have := matchedCount_pos p s hpn hsnil hhead
      omega
    · -- partial_match: the key is absent, nothing changes
      rw [eraseAux_miss (Or.inr hc)]
      refine ⟨?_, ?_, ?_⟩
      · intro n' hk
        injection hk with hk
        subst hk
        exact ⟨fun s' _ => rfl, hw, hpne, rfl, fun h => h⟩
      · intro h
        cases h
      · intro q merged hk
        cases hk

/-! ### The tree wrapper: invariant and per-operation behaviour -/

theorem compareT_nil_exact : comparePrefixes true ([] : List Char) [] = (.exact_match, 0) := rfl

theorem compareT_nil_full {k : List Char} (hk : k ≠ []) :
    comparePrefixes true ([] : List Char) k = (.prefix_full_match, 0) := by
  cases k with
  | nil => exact absurd rfl hk
  | cons c cs => rfl

theorem erase_root_exact (d : Option T) (ch : List (Char × node T)) (i len nx : Nat)
    (ns : List (List Char × Nat)) :
    (tree.erase ⟨.mk d [] ch i, len, ns, nx⟩ []).root = .mk none [] ch i := rfl

theorem erase_root_full_none {d : Option T} {ch : List (Char × node T)}
    {i len nx : Nat} {ns : List (List Char × Nat)} {k : List Char}
    (hk : k ≠ []) (hl : lookupChild k.headI ch = none) :
    tree.erase ⟨.mk d [] ch i, len, ns, nx⟩ k = ⟨.mk d [] ch i, len, ns, nx⟩ := by
  rw [tree.erase]
  simp only [node.pre_mk, node.data_mk, node.children_mk, node.id_mk, compareT_nil_full hk, List.drop_zero]
  split <;> rename_i hsplit
  · rfl
  · rw [hl] at hsplit
    cases hsplit

theorem erase_root_keep {d : Option T} {ch : List (Char × node T)}
    {i len nx : Nat} {ns : List (List Char × Nat)} {k : List Char}
    {child n' : node T}
    (hk : k ≠ []) (hl : lookupChild k.headI ch = some child)
    (hout : (eraseAux child k).out = .keep n') :
    (tree.erase ⟨.mk d [] ch i, len, ns, nx⟩ k).root =
      .mk d [] (setChild k.headI n' ch) i := by
  rw [tree.erase]
  simp only [node.pre_mk, node.data_mk, node.children_mk, node.id_mk, compareT_nil_full hk, List.drop_zero]
  split <;> rename_i hsplit
  · rw [hl] at hsplit
    cases hsplit
  · rename_i child'
    rw [hl] at hsplit
    injection hsplit with h''
    subst h''
    simp only [List.drop_zero, hout]
    cases (eraseAux child k).touched <;> rfl

theorem erase_root_drop {d : Option T} {ch : List (Char × node T)}
    {i len nx : Nat} {ns : List (List Char × Nat)} {k : List Char}
    {child : node T}
    (hk : k ≠ []) (hl : lookupChild k.headI ch = some child)
    (hout : (eraseAux child k).out = .drop) :
    (tree.erase ⟨.mk d [] ch i, len, ns, nx⟩ k).root =
      .mk d [] (removeChild k.headI ch) i := by
  rw [tree.erase]
  simp only [node.pre_mk, node.data_mk, node.children_mk, node.id_mk, compareT_nil_full hk, List.drop_zero]
  split <;> rename_i hsplit
  · rw [hl] at hsplit
    cases hsplit
  · rename_i child'
    rw [hl] at hsplit
    injection hsplit with h''
    subst h''
    simp only [List.drop_zero, hout]
    cases (eraseAux child k).touched <;> rfl

theorem erase_root_mergeUp {d : Option T} {ch : List (Char × node T)}
    {i len nx : Nat} {ns : List (List Char × Nat)} {k : List Char}
    {child q0 merged : node T}
    (hk : k ≠ []) (hl : lookupChild k.headI ch = some child)
    (hout : (eraseAux child k).out = .mergeUp q0 merged) :
    (tree.erase ⟨.mk d [] ch i, len, ns, nx⟩ k).root =
      .mk d [] (setChild merged.pre.headI merged (setChild k.headI q0 ch)) i := by
  rw [tree.erase]
  simp only [node.pre_mk, node.data_mk, node.children_mk, node.id_mk, compareT_nil_full hk, List.drop_zero]
  split <;> rename_i hsplit
  · rw [hl] at hsplit
    cases hsplit
  · rename_i child'
    rw [hl] at hsplit
    injection hsplit with h''
    subst h''
    simp only [List.drop_zero, hout]
    cases (eraseAux child k).touched <;> rfl

/-- The tree wrapper's standing invariant: a structurally well-formed root
with the empty prefix, all non-root nodes compact. -/
def treeWF (t : tree T) : Prop :=
  wfb t.root = true ∧ t.root.pre = [] ∧ compactL t.root.children = true

theorem treeWF_empty : treeWF (tree.empty T) := by
  refine ⟨?_, rfl, ?_⟩
  · show wfb (node.mk none [] [] 0) = true
    rw [wfb_mk]
    exact wfbL_nil
  · show compactL ([] : List (Char × node T)) = true
    exact compactL_nil

/-- `insert` establishes the key, keeps every other key, and preserves the invariant. -/
theorem insert_spec (t : tree T) (k : List Char) (v : T) (hw : treeWF t) :
    treeWF (t.insert k v) ∧
    tree.get true (t.insert k v) k = .ok v ∧
    (∀ k', k' ≠ k → tree.get true (t.insert k v) k' = tree.get true t k') := by
  obtain ⟨hw1, hw2, hw3⟩ := hw
  have ha := agree_of_pre_nil hw2 k
  obtain ⟨hg1, hg2⟩ := insertAux_get k v t.root hw1 k t.next ha
  obtain ⟨hi1, hi2, hi3, hi4, hi5, hi6⟩ := insertAux_inv k v t.root hw1 k t.next ha
  have hroot : (t.insert k v).root = (insertAux k v t.root k t.next).n := rfl
  refine ⟨⟨?_, ?_, ?_⟩, ?_, ?_⟩
  · rw [hroot]; exact hi1
  · rw [hroot]; exact hi2.mpr hw2
  · rw [hroot]; exact hi5 hw2 hw3
  · rw [tree.get, hroot, hg1]
  · intro k' hne
    rw [tree.get, tree.get, hroot, hg2 k' hne]

/-- `operator[]` keeps every other key and preserves the invariant. -/
theorem goi_spec [Inhabited T] (t : tree T) (k : List Char) (hw : treeWF t) :
    treeWF (t.getOrInsert k).1 ∧
    (∀ k', k' ≠ k → tree.get true (t.getOrInsert k).1 k' = tree.get true t k') := by
  obtain ⟨hw1, hw2, hw3⟩ := hw
  have ha := agree_of_pre_nil hw2 k
  obtain ⟨hg1, hg2⟩ :=
    insertAux_get k ((goiAux k t.root k t.next).ret) t.root hw1 k t.next ha
  obtain ⟨hi1, hi2, hi3, hi4, hi5, hi6⟩ :=
    insertAux_inv k ((goiAux k t.root k t.next).ret) t.root hw1 k t.next ha
  have hroot : (t.getOrInsert k).1.root =
      (insertAux k ((goiAux k t.root k t.next).ret) t.root k t.next).n :=
    (goiAux_eq_insertAux k t.root k t.next).1
  refine ⟨⟨?_, ?_, ?_⟩, ?_⟩
  · rw [hroot]; exact hi1
  · rw [hroot]; exact hi2.mpr hw2
  · rw [hroot]; exact hi5 hw2 hw3
  · intro k' hne
    rw [tree.get, tree.get, hroot, hg2 k' hne]


/-- `erase` keeps every other key and preserves the invariant (the root is
exempt from the merge reorganization, matching the null `ParentParent`). -/
theorem erase_spec (t : tree T) (k : List Char) (hw : treeWF t) :
    treeWF (t.erase k) ∧
    (∀ k', k' ≠ k → tree.get true (t.erase k) k' = tree.get true t k') := by
  obtain ⟨hw1, hw2, hw3⟩ := hw
  obtain ⟨root, len, ns, nx⟩ := t
  obtain ⟨d, p, ch, i⟩ := root
  simp only [node.pre_mk] at hw2
  subst hw2
  simp only [node.children_mk] at hw3
  have hwL : wfbL ch = true := by
    have h := hw1
    rw [wfb_mk] at h
    exact h
  by_cases hk : k = []
  · subst hk
    have hr := erase_root_exact d ch i len nx ns
    constructor
    · refine ⟨?_, ?_, ?_⟩
      · rw [hr, wfb_mk]
        exact hwL
      · rw [hr]
        rfl
      · rw [hr]
        exact hw3
    · intro k' hne
      have hgg : getAux true (tree.erase ⟨node.mk d [] ch i, len, ns, nx⟩ []).root k' =
          getAux true (node.mk d [] ch i) k' := by
        rw [hr]
        exact getAux_full_congr (compareT_nil_full hne) rfl
      rw [tree.get, tree.get, hgg]
  · have hc := compareT_nil_full hk
    cases hl : lookupChild k.headI ch with
    | none =>
      rw [erase_root_full_none hk hl]
      exact ⟨⟨hw1, rfl, hw3⟩, fun k' _ => rfl⟩
    | some child =>
      obtain ⟨hcne, hch, hcw⟩ := wfbL_lookup hwL hl
      have hagree : agree child k := fun _ => ⟨hk, hch⟩
      obtain ⟨specK, specD, specM⟩ := eraseAux_spec child hcw hcne k hagree
      cases hout : (eraseAux child k).out with
      | keep n' =>
        obtain ⟨sF, sW, sP, sH, sC⟩ := specK n' hout
        constructor
        · refine ⟨?_, ?_, ?_⟩
          · rw [erase_root_keep hk hl hout, wfb_mk]
            exact wfbL_setChild hwL sP (sH.trans hch) sW
          · rw [erase_root_keep hk hl hout]
            rfl
          · rw [erase_root_keep hk hl hout]
            simp only [node.children_mk]
            exact compactL_setChild hw3 (sC (compactL_lookup hw3 hl))
        · intro k' hne
          have hgg : getAux true (tree.erase ⟨node.mk d [] ch i, len, ns, nx⟩ k).root k' =
              getAux true (node.mk d [] ch i) k' := by
            rw [erase_root_keep hk hl hout]
            by_cases hk' : k' = []
            · subst hk'
              rw [getAux_exact compareT_nil_exact, getAux_exact compareT_nil_exact]
            · have hc' := compareT_nil_full hk'
              by_cases hcc : k'.headI = k.headI
              · rw [getAux_full_some hc' (show lookupChild ((k'.drop 0).headI)
                      (setChild k.headI n' ch) = some n' by
                    rw [List.drop_zero, hcc]
                    exact lookupChild_setChild_self _ _ _),
                  getAux_full_some hc' (show lookupChild ((k'.drop 0).headI) ch
                      = some child by
                    rw [List.drop_zero, hcc]
                    exact hl)]
                simp only [List.drop_zero]
                exact sF k' hne
              · exact getAux_full_congr hc' (by
                  rw [List.drop_zero]
                  exact lookupChild_setChild_ne _ _ (fun h => hcc h.symm) _ _)
          rw [tree.get, tree.get, hgg]
      | drop =>
        have hDrop := specD hout
        constructor
        · refine ⟨?_, ?_, ?_⟩
          · rw [erase_root_drop hk hl hout, wfb_mk]
            exact wfbL_removeChild hwL
          · rw [erase_root_drop hk hl hout]
            rfl
          · rw [erase_root_drop hk hl hout]
            simp only [node.children_mk]
            exact compactL_removeChild hw3
        · intro k' hne
          have hgg : getAux true (tree.erase ⟨node.mk d [] ch i, len, ns, nx⟩ k).root k' =
              getAux true (node.mk d [] ch i) k' := by
            rw [erase_root_drop hk hl hout]
            by_cases hk' : k' = []
            · subst hk'
              rw [getAux_exact compareT_nil_exact, getAux_exact compareT_nil_exact]
            · have hc' := compareT_nil_full hk'
              by_cases hcc : k'.headI = k.headI
              · rw [getAux_full_none hc' (show lookupChild ((k'.drop 0).headI)
                      (removeChild k.headI ch) = none by
                    rw [List.drop_zero, hcc]
                    exact lookupChild_removeChild_self hwL),
                  getAux_full_some hc' (show lookupChild ((k'.drop 0).headI) ch
                      = some child by
                    rw [List.drop_zero, hcc]
                    exact hl)]
                simp only [List.drop_zero]
                exact (hDrop k' hne).symm
              · exact getAux_full_congr hc' (by
                  rw [List.drop_zero]
                  exact lookupChild_removeChild_ne _ _ (fun h => hcc h.symm) _)
          rw [tree.get, tree.get, hgg]
      | mergeUp q0 merged =>
        obtain ⟨sF, sW, sP, sH, sC⟩ := specM q0 merged hout
        have hmh : merged.pre.headI = k.headI := sH.trans hch
        have hsetc : setChild merged.pre.headI merged (setChild k.headI q0 ch) =
            setChild k.headI merged ch := by
          rw [hmh, setChild_setChild]
        constructor
        · refine ⟨?_, ?_, ?_⟩
          · rw [erase_root_mergeUp hk hl hout, hsetc, wfb_mk]
            exact wfbL_setChild hwL sP (sH.trans hch) sW
          · rw [erase_root_mergeUp hk hl hout, hsetc]
            rfl
          · rw [erase_root_mergeUp hk hl hout, hsetc]
            simp only [node.children_mk]
            exact compactL_setChild hw3 (sC (compactL_lookup hw3 hl))
        · intro k' hne
          have hgg : getAux true (tree.erase ⟨node.mk d [] ch i, len, ns, nx⟩ k).root k' =
              getAux true (node.mk d [] ch i) k' := by
            rw [erase_root_mergeUp hk hl hout, hsetc]
            by_cases hk' : k' = []
            · subst hk'
              rw [getAux_exact compareT_nil_exact, getAux_exact compareT_nil_exact]
            · have hc' := compareT_nil_full hk'
              by_cases hcc : k'.headI = k.headI
              · rw [getAux_full_some hc' (show lookupChild ((k'.drop 0).headI)
                      (setChild k.headI merged ch) = some merged by
                    rw [List.drop_zero, hcc]
                    exact lookupChild_setChild_self _ _ _),
                  getAux_full_some hc' (show lookupChild ((k'.drop 0).headI) ch
                      = some child by
                    rw [List.drop_zero, hcc]
                    exact hl)]
                simp only [List.drop_zero]
                exact sF k' hne
              · exact getAux_full_congr hc' (by
                  rw [List.drop_zero]
                  exact lookupChild_setChild_ne _ _ (fun h => hcc h.symm) _ _)
          rw [tree.get, tree.get, hgg]

/-! ### Operation sequences and the copy machinery -/
/-- The key an operation touches. -/
def op.key : op T → List Char
  | .ins k _ => k
  | .ers k => k
  | .goi k => k

/-- One operation preserves the invariant and every untouched key. -/
theorem applyOp_wf [Inhabited T] (t : tree T) (o : op T) (hw : treeWF t) :
    treeWF (applyOp t o) ∧
    (∀ k', k' ≠ o.key → tree.get true (applyOp t o) k' = tree.get true t k') := by
  cases o with
  | ins k v => exact ⟨(insert_spec t k v hw).1, (insert_spec t k v hw).2.2⟩
  | ers k => exact erase_spec t k hw
  | goi k => exact goi_spec t k hw

/-- Any operation sequence preserves the invariant. -/
theorem applyOps_wf [Inhabited T] (t : tree T) (l : List (op T)) (hw : treeWF t) :
    treeWF (applyOps t l) := by
  induction l generalizing t with
  | nil => exact hw
  | cons o rest ih => exact ih _ (applyOp_wf t o hw).1

/-- A key no operation of the sequence touches keeps its lookup result. -/
theorem applyOps_get_frame [Inhabited T] (t : tree T) (l : List (op T)) (k : List Char)
    (hw : treeWF t) (h : ∀ o ∈ l, o.key ≠ k) :
    tree.get true (applyOps t l) k = tree.get true t k := by
  induction l generalizing t with
  | nil => rfl
  | cons o rest ih =>
    have hstep := applyOp_wf t o hw
    calc tree.get true (applyOps (applyOp t o) rest) k
        = tree.get true (applyOp t o) k :=
          ih (applyOp t o) hstep.1 (fun o' ho' => h o' (List.mem_cons_of_mem _ ho'))
      _ = tree.get true t k :=
          hstep.2 k (Ne.symm (h o (List.mem_cons_self _ _)))

/-- `insert` always pushes the inserted key to the front of the tracking
list, dropping the touched node's previous entry. -/
theorem insert_nodes_front (t : tree T) (k : List Char) (v : T) (hw : treeWF t) :
    ∃ j, (t.insert k v).nodes = (k, j) :: tree.untrackL j t.nodes := by
  obtain ⟨hw1, hw2, hw3⟩ := hw
  have ha := agree_of_pre_nil hw2 k
  have hi6 := (insertAux_inv k v t.root hw1 k t.next ha).2.2.2.2.2
  cases htr : (insertAux k v t.root k t.next).tracked with
  | none =>
    rw [htr] at hi6
    cases hi6
  | some j =>
    refine ⟨j, ?_⟩
    show (match (insertAux k v t.root k t.next).tracked with
      | some j' => tree.trackL k j' t.nodes
      | none => t.nodes) = (k, j) :: tree.untrackL j t.nodes
    rw [htr]
    rfl

/-- `operator[]` does the same, on every call. -/
theorem goi_nodes_front [Inhabited T] (t : tree T) (k : List Char) (hw : treeWF t) :
    ∃ j, (t.getOrInsert k).1.nodes = (k, j) :: tree.untrackL j t.nodes := by
  obtain ⟨hw1, hw2, hw3⟩ := hw
  have ha := agree_of_pre_nil hw2 k
  have hi6 := (insertAux_inv k ((goiAux k t.root k t.next).ret) t.root hw1 k t.next ha).2.2.2.2.2
  have htr2 := (goiAux_eq_insertAux k t.root k t.next).2
  cases htr : (goiAux k t.root k t.next).tracked with
  | none =>
    rw [htr] at htr2
    rw [← htr2] at hi6
    cases hi6
  | some j =>
    refine ⟨j, ?_⟩
    show (match (goiAux k t.root k t.next).tracked with
      | some j' => tree.trackL k j' t.nodes
      | none => t.nodes) = (k, j) :: tree.untrackL j t.nodes
    rw [htr]
    rfl

/-- Lookup in a shifted children map. -/
theorem lookupChild_shiftIdsL (off : Nat) (c : Char) :
    ∀ (cs : List (Char × node T)),
      lookupChild c (shiftIdsL off cs) = Option.map (shiftIds off) (lookupChild c cs) := by
  intro cs
  induction cs with
  | nil => rw [shiftIdsL]; rfl
  | cons x rest ih =>
    obtain ⟨c', n'⟩ := x
    rw [shiftIdsL]
    by_cases hc : c' = c
    · simp [lookupChild, hc]
    · simp only [lookupChild, if_neg hc]
      exact ih

/-- Shifting ids changes neither prefixes nor data: lookups resolve as
before (the copied graph answers every query like the original). -/
theorem getAux_shiftIds (off : Nat) : ∀ (n : node T) (u : Bool) (s : List Char),
    getAux u (shiftIds off n) s = getAux u n s := by
  intro n
  induction n using node.inductChildren with
  | step d p ch i IH =>
    intro u s
    rw [shiftIds]
    rcases hc : comparePrefixes u p s with ⟨res, m⟩
    cases res with
    | exact_match => rw [getAux_exact hc, getAux_exact hc]
    | no_match => rw [getAux_miss (Or.inl hc), getAux_miss (Or.inl hc)]
    | partial_match => rw [getAux_miss (Or.inr hc), getAux_miss (Or.inr hc)]
    | prefix_full_match =>
      cases hl : lookupChild ((s.drop m).headI) ch with
      | none =>
        rw [getAux_full_none hc (by rw [lookupChild_shiftIdsL, hl]; rfl),
          getAux_full_none hc hl]
      | some child =>
        rw [getAux_full_some hc (show lookupChild ((s.drop m).headI) (shiftIdsL off ch)
              = some (shiftIds off child) by rw [lookupChild_shiftIdsL, hl]; rfl),
          getAux_full_some hc hl]
        exact IH _ (lookupChild_mem hl) u (s.drop m)

/-- Dereferencing a shifted id in the shifted graph reads the original data. -/
theorem valueOfIdL_shiftIdsL (off j : Nat) :
    ∀ (cs : List (Char × node T)),
      (∀ x ∈ cs, valueOfId (shiftIds off x.2) (j + off) = valueOfId x.2 j) →
      valueOfIdL (shiftIdsL off cs) (j + off) = valueOfIdL cs j := by
  intro cs h
  induction cs with
  | nil =>
    rw [shiftIdsL, valueOfIdL, valueOfIdL]
  | cons x rest ih =>
    obtain ⟨c, n'⟩ := x
    rw [shiftIdsL, valueOfIdL, valueOfIdL]
    rw [h (c, n') (List.mem_cons_self _ _)]
    cases valueOfId n' j with
    | some v => rfl
    | none => exact ih (fun y hy => h y (List.mem_cons_of_mem _ hy))

theorem valueOfId_shiftIds (off : Nat) : ∀ (n : node T) (j : Nat),
    valueOfId (shiftIds off n) (j + off) = valueOfId n j := by
  intro n
  induction n using node.inductChildren with
  | step d p ch i IH =>
    intro j
    rw [shiftIds, valueOfId, valueOfId]
    by_cases hij : i = j
    · rw [if_pos (by omega), if_pos hij]
    · rw [if_neg (by omega), if_neg hij]
      exact valueOfIdL_shiftIdsL off j ch (fun x hx => IH x hx j)

/-- Ids of a shifted graph all lie at or above the shift. -/
theorem hasIdL_shiftIdsL_ge (off j : Nat) :
    ∀ (cs : List (Char × node T)),
      (∀ x ∈ cs, hasId (shiftIds off x.2) j = true → off ≤ j) →
      hasIdL (shiftIdsL off cs) j = true → off ≤ j := by
  intro cs h
  induction cs with
  | nil =>
    rw [shiftIdsL, hasIdL]
    intro hfalse
    cases hfalse
  | cons x rest ih =>
    obtain ⟨c, n'⟩ := x
    rw [shiftIdsL, hasIdL]
    intro hor
    rcases Bool.or_eq_true_iff.mp hor with h1 | h2
    · exact h (c, n') (List.mem_cons_self _ _) h1
    · exact ih (fun y hy => h y (List.mem_cons_of_mem _ hy)) h2

theorem hasId_shiftIds_ge (off : Nat) : ∀ (n : node T) (j : Nat),
    hasId (shiftIds off n) j = true → off ≤ j := by
  intro n
  induction n using node.inductChildren with
  | step d p ch i IH =>
    intro j
    rw [shiftIds, hasId]
    intro hor
    rcases Bool.or_eq_true_iff.mp hor with h1 | h2
    · simp only [beq_iff_eq] at h1
      omega
    · exact hasIdL_shiftIdsL_ge off j ch (fun x hx => IH x hx j) h2

/-- A graph whose ids are bounded holds no id at or above the bound. -/
theorem hasIdL_lt_of_idsLtL (b j : Nat) :
    ∀ (cs : List (Char × node T)),
      (∀ x ∈ cs, idsLt x.2 b = true → hasId x.2 j = true → j < b) →
      idsLtL cs b = true → hasIdL cs j = true → j < b := by
  intro cs h
  induction cs with
  | nil =>
    rw [hasIdL]
    intro _ hfalse
    cases hfalse
  | cons x rest ih =>
    obtain ⟨c, n'⟩ := x
    rw [idsLtL, hasIdL]
    intro hb hor
    simp only [Bool.and_eq_true] at hb
    rcases Bool.or_eq_true_iff.mp hor with h1 | h2
    · exact h (c, n') (List.mem_cons_self _ _) hb.1 h1
    · exact ih (fun y hy => h y (List.mem_cons_of_mem _ hy)) hb.2 h2

theorem hasId_lt_of_idsLt : ∀ (n : node T) (b j : Nat),
    idsLt n b = true → hasId n j = true → j < b := by
  intro n
  induction n using node.inductChildren with
  | step d p ch i IH =>
    intro b j
    rw [idsLt, hasId]
    intro hb hor
    simp only [Bool.and_eq_true, decide_eq_true_eq] at hb
    rcases Bool.or_eq_true_iff.mp hor with h1 | h2
    · simp only [beq_iff_eq] at h1
      omega
    · exact hasIdL_lt_of_idsLtL b j ch (fun x hx => IH x hx b j) hb.2 h2

/-! ### The claims -/

/-- The tree with one key, cleared. -/
def clearedTree : tree Nat := ((tree.empty Nat).insert ['a'] 1).clear

theorem clearedTree_eq :
    clearedTree = ⟨node.mk none [] [] 2, 1, [(['a'], 1)], 3⟩ := by
  simp [clearedTree, tree.empty, tree.insert, tree.clear, insertAux, comparePrefixes,
    matchedCount, lookupChild, setChild, inc64, w64, tree.trackL]

/-- C1: `clear()` does not reset the tree to the empty state.  The source
replaces only `Root`; `Length` and `Nodes` survive (`NodeToNodesIterator`
likewise).  After one insert and a `clear`, `length()` is still 1 and the
tracking list is non-empty (`begin() != end()`, with a dangling entry), even
though no key is contained any more — contradicting the claim. -/
theorem clear_keeps_length_and_tracking :
    tree.length clearedTree = 1 ∧
    clearedTree.nodes ≠ [] ∧
    tree.containsT clearedTree ['a'] = false := by
  rw [clearedTree_eq]
  refine ⟨rfl, by decide, ?_⟩
  show containsAux (node.mk none [] [] 2) ['a'] = false
  simp [containsAux, comparePrefixes, matchedCount, lookupChild]

/-- C2 (counterexample): when the key suffix is shorter than the node prefix
the optimistic comparison reports `(no_match, 0)`, not the claimed
`(partial_match, min |prefix| |suffix|)`. -/
theorem optimistic_partial_counterexample :
    comparePrefixes false ['a', 'b'] ['a'] = (.no_match, 0) ∧
    comparePrefixes false ['a', 'b'] ['a'] ≠
      (.partial_match, min (['a', 'b'].length) (['a'].length)) := by
  constructor
  · rfl
  · decide

/-- C2 (amended): the optimistic comparison classifies purely from the length
comparison, with matched-count `min |prefix| |suffix|` on the two arms where
the whole prefix is consumed; a key suffix shorter than the prefix yields
`(no_match, 0)` — never `partial_match`, and with matched-count 0, not the
minimum. -/
theorem optimistic_compare_by_length (pre s : List Char) :
    (pre.length < s.length →
      comparePrefixes false pre s = (.prefix_full_match, min pre.length s.length)) ∧
    (pre.length = s.length →
      comparePrefixes false pre s = (.exact_match, min pre.length s.length)) ∧
    (s.length < pre.length →
      comparePrefixes false pre s = (.no_match, 0)) := by
  have hdef : comparePrefixes false pre s =
      (if pre.length < s.length then (.prefix_full_match, pre.length)
       else if pre.length = s.length then (.exact_match, pre.length)
       else (.no_match, 0)) := rfl
  refine ⟨?_, ?_, ?_⟩
  · intro h
    rw [hdef, if_pos h, Nat.min_eq_left (Nat.le_of_lt h)]
  · intro h
    rw [hdef, if_neg (by omega), if_pos h, Nat.min_eq_left (Nat.le_of_eq h)]
  · intro h
    rw [hdef, if_neg (by omega), if_neg (by omega)]

/-- C3: a key inserted and then never touched again (no later erase, insert
or get-or-insert of it) resolves to the inserted value under the radix-mode
`get`, whatever operations surround the insert. -/
theorem insert_roundtrip_over_ops (T : Type) [Inhabited T] (l1 l2 : List (op T))
    (k : List Char) (v : T) (h : ∀ o ∈ l2, o.key ≠ k) :
    tree.get true (applyOps (tree.empty T) (l1 ++ op.ins k v :: l2)) k = .ok v := by
  have hw1 : treeWF (applyOps (tree.empty T) l1) := applyOps_wf _ l1 treeWF_empty
  have hins := insert_spec (applyOps (tree.empty T) l1) k v hw1
  have hsplit2 : applyOps (tree.empty T) (l1 ++ op.ins k v :: l2) =
      applyOps ((applyOps (tree.empty T) l1).insert k v) l2 := by
    rw [applyOps, List.foldl_append]
    rfl
  rw [hsplit2, applyOps_get_frame _ l2 k hins.1 h, hins.2.1]

theorem insert_roundtrip_over_ops_witness :
    tree.get true (applyOps (tree.empty Nat)
        ([op.ins ['b'] 7] ++ op.ins ['a'] 3 :: [op.ins ['b'] 5, op.ers ['b']]))
      ['a'] = .ok 3 :=
  insert_roundtrip_over_ops Nat [op.ins ['b'] 7] [op.ins ['b'] 5, op.ers ['b']]
    ['a'] 3 (by decide)

/-- The two-key tree whose optimistic lookups misfire: "abc" and "abd" share
the intermediate node "ab". -/
def divergenceTree : tree Nat :=
  ((tree.empty Nat).insert ['a', 'b', 'c'] 1).insert ['a', 'b', 'd'] 2

theorem divergenceTree_root : divergenceTree.root =
    node.mk none [] [('a', node.mk none ['a', 'b']
      [('c', node.mk (some 1) ['c'] [] 1), ('d', node.mk (some 2) ['d'] [] 3)] 2)] 0 := by
  simp [divergenceTree, tree.empty, tree.insert, insertAux, comparePrefixes,
    matchedCount, lookupChild, setChild, inc64, w64, tree.trackL]

/-- C4: with "abc" and "abd" stored, the non-stored query key "aXc" (same
structural shape) fails with key-not-found under radix mode but returns the
resident value 1 under optimistic mode, which skips the character
comparison inside the "ab" prefix. -/
theorem optimistic_false_positive :
    tree.get true divergenceTree ['a', 'X', 'c'] = .error ['a', 'X', 'c'] ∧
    tree.get false divergenceTree ['a', 'X', 'c'] = .ok 1 ∧
    tree.get true divergenceTree ['a', 'b', 'c'] = .ok 1 ∧
    tree.get true divergenceTree ['a', 'b', 'd'] = .ok 2 := by
  refine ⟨?_, ?_, ?_, ?_⟩ <;>
  · rw [tree.get, divergenceTree_root]
    simp [getAux, comparePrefixes, matchedCount, lookupChild]

/-- The tree "ab" ↦ 1, "ac" ↦ 2, whose intermediate node "a" holds no value. -/
def lengthBugTree : tree Nat :=
  ((tree.empty Nat).insert ['a', 'b'] 1).insert ['a', 'c'] 2

theorem lengthBugTree_eq :
    lengthBugTree =
      ⟨node.mk none [] [('a', node.mk none ['a']
          [('b', node.mk (some 1) ['b'] [] 1), ('c', node.mk (some 2) ['c'] [] 3)] 2)] 0,
        2, [(['a', 'c'], 3), (['a', 'b'], 1)], 4⟩ := by
  simp [lengthBugTree, tree.empty, tree.insert, insertAux, comparePrefixes,
    matchedCount, lookupChild, setChild, inc64, w64, tree.trackL]

theorem lengthBugTree_erased_eq :
    lengthBugTree.erase ['a'] =
      ⟨node.mk none [] [('a', node.mk none ['a']
          [('b', node.mk (some 1) ['b'] [] 1), ('c', node.mk (some 2) ['c'] [] 3)] 2)] 0,
        1, [(['a', 'c'], 3), (['a', 'b'], 1)], 4⟩ := by
  rw [lengthBugTree_eq]
  simp [tree.erase, eraseAux, comparePrefixes, matchedCount, lookupChild, setChild,
    removeChild, dec64, w64, tree.untrackL]

/-- C5: erasing the absent key "a" (it resolves to a valueless intermediate
node via `exact_match`) decrements `length()` from 2 to 1 even though both
stored keys survive with their values: the source's `exact_match` erase arm
untracks the node and decrements `Length` unconditionally, without checking
that the node holds a value.  `length()` then undercounts the resident
keys, contradicting every part of the claimed accounting. -/
theorem erase_absent_key_decrements_length :
    tree.length lengthBugTree = 2 ∧
    tree.containsT lengthBugTree ['a'] = false ∧
    tree.length (lengthBugTree.erase ['a']) = 1 ∧
    tree.get true (lengthBugTree.erase ['a']) ['a', 'b'] = .ok 1 ∧
    tree.get true (lengthBugTree.erase ['a']) ['a', 'c'] = .ok 2 := by
  refine ⟨?_, ?_, ?_, ?_, ?_⟩
  · rw [lengthBugTree_eq]
    rfl
  · rw [tree.containsT, lengthBugTree_eq]
    simp [containsAux, comparePrefixes, matchedCount, lookupChild]
  · rw [lengthBugTree_erased_eq]
    rfl
  · rw [tree.get, lengthBugTree_erased_eq]
    simp [getAux, comparePrefixes, matchedCount, lookupChild]
  · rw [tree.get, lengthBugTree_erased_eq]
    simp [getAux, comparePrefixes, matchedCount, lookupChild]

/-- C6: after an erase on any reachable tree, every non-root node either
holds a value or has at least two children: a valueless node left with no
child is dropped from its parent, and a valueless node left with exactly one
child is merged with that child (prefixes concatenated). -/
theorem erase_preserves_compaction (T : Type) [Inhabited T]
    (l : List (op T)) (k : List Char) :
    compactL ((applyOps (tree.empty T) l).erase k).root.children = true :=
  (erase_spec (applyOps (tree.empty T) l) k (applyOps_wf _ l treeWF_empty)).1.2.2

/-- C7: `get` fails exactly on the keys `contains` rejects — traversal ends
without a resident value — and the error carries the queried key itself.
(In the model every other operation is a total function returning a tree,
and `get` returns no modified tree at all, so no other operation can fail
and a failing `get` cannot mutate the tree.) -/
theorem get_error_iff_absent (T : Type) (t : tree T) (k : List Char) :
    (∀ (u : Bool) (e : List Char), tree.get u t k = .error e → e = k) ∧
    (tree.get true t k = .error k ↔ tree.containsT t k = false) := by
  constructor
  · intro u e h
    rw [tree.get] at h
    cases hg : getAux u t.root k with
    | some v =>
      rw [hg] at h
      cases h
    | none =>
      rw [hg] at h
      injection h with h1
      exact h1.symm
  · rw [tree.containsT, containsAux_eq_isSome, tree.get]
    cases getAux true t.root k with
    | some v => simp
    | none => simp

/-- The keys "a", "b", "a" inserted in order (the last an overwrite). -/
def abaTree : tree Nat :=
  applyOps (tree.empty Nat) [.ins ['a'] 1, .ins ['b'] 2, .ins ['a'] 3]

theorem abaTree_eq :
    abaTree = ⟨node.mk none []
        [('a', node.mk (some 3) ['a'] [] 1), ('b', node.mk (some 2) ['b'] [] 2)] 0,
      2, [(['a'], 1), (['b'], 2)], 3⟩ := by
  simp [abaTree, applyOps, applyOp, tree.empty, tree.insert, insertAux,
    comparePrefixes, matchedCount, lookupChild, setChild, inc64, w64, tree.trackL]

theorem abaTree_iter :
    abaTree.iter = [(['a'], some 3), (['b'], some 2)] := by
  rw [abaTree_eq]
  simp [tree.iter, valueOfId, valueOfIdL]

/-- C8: every `insert` and every `operator[]` call (pure reads included)
pushes the touched key to the front of the tracking list, dropping that
node's previous entry, so iteration is most-recently-touched first; and
concretely, inserting "a", "b", "a" in that order iterates "a" (with its
overwritten value 3) before "b". -/
theorem mru_iteration_order :
    (∀ (T : Type) [Inhabited T] (l : List (op T)) (k : List Char) (v : T),
      ∃ j, ((applyOps (tree.empty T) l).insert k v).nodes
          = (k, j) :: tree.untrackL j (applyOps (tree.empty T) l).nodes) ∧
    (∀ (T : Type) [Inhabited T] (l : List (op T)) (k : List Char),
      ∃ j, ((applyOps (tree.empty T) l).getOrInsert k).1.nodes
          = (k, j) :: tree.untrackL j (applyOps (tree.empty T) l).nodes) ∧
    abaTree.iter = [(['a'], some 3), (['b'], some 2)] := by
  refine ⟨?_, ?_, ?_⟩
  · intro T _ l k v
    exact insert_nodes_front _ k v (applyOps_wf _ l treeWF_empty)
  · intro T _ l k
    exact goi_nodes_front _ k (applyOps_wf _ l treeWF_empty)
  · exact abaTree_iter

/-- C9: a copy answers every lookup like the original, has the same length,
iterates in the same order with the same values, and lives entirely at
fresh node addresses — no id is shared with the original, which is the
structural independence of the two trees. -/
theorem copy_fidelity (T : Type) (t : tree T) (h : idsLt t.root t.next = true) :
    (tree.copy t).iter = t.iter ∧
    tree.length (tree.copy t) = tree.length t ∧
    (∀ (u : Bool) (k : List Char), tree.get u (tree.copy t) k = tree.get u t k) ∧
    (∀ i, hasId t.root i = true → hasId (tree.copy t).root i = false) := by
  refine ⟨?_, rfl, ?_, ?_⟩
  · show (t.nodes.map (fun p => (p.1, p.2 + t.next))).map
        (fun p => (p.1, valueOfId (shiftIds t.next t.root) p.2))
      = t.nodes.map (fun p => (p.1, valueOfId t.root p.2))
    rw [List.map_map]
    apply List.map_congr_left
    intro p _
    show (p.1, valueOfId (shiftIds t.next t.root) (p.2 + t.next))
      = (p.1, valueOfId t.root p.2)
    rw [valueOfId_shiftIds]
  · intro u k
    rw [tree.get, tree.get]
    show (match getAux u (shiftIds t.next t.root) k with
      | some v => Except.ok v | none => Except.error k) = _
    rw [getAux_shiftIds]
  · intro i hi
    cases hcopy : hasId (tree.copy t).root i with
    | false => rfl
    | true =>
      exfalso
      have h1 : i < t.next := hasId_lt_of_idsLt t.root t.next i h hi
      have h2 : t.next ≤ i := hasId_shiftIds_ge t.next t.root i hcopy
      omega

/-- A concrete two-key tree for instantiating the copy theorem. -/
def copyWitnessTree : tree Nat := ((tree.empty Nat).insert ['a'] 1).insert ['b'] 2

theorem copyWitnessTree_eq :
    copyWitnessTree = ⟨node.mk none []
        [('a', node.mk (some 1) ['a'] [] 1), ('b', node.mk (some 2) ['b'] [] 2)] 0,
      2, [(['b'], 2), (['a'], 1)], 3⟩ := by
  simp [copyWitnessTree, tree.empty, tree.insert, insertAux,
    comparePrefixes, matchedCount, lookupChild, setChild, inc64, w64, tree.trackL]

theorem copyWitnessTree_ids :
    idsLt copyWitnessTree.root copyWitnessTree.next = true := by
  rw [copyWitnessTree_eq]
  simp [idsLt, idsLtL]

theorem copy_fidelity_witness :
    (tree.copy copyWitnessTree).iter = copyWitnessTree.iter ∧
    tree.length (tree.copy copyWitnessTree) = tree.length copyWitnessTree :=
  ⟨(copy_fidelity Nat copyWitnessTree copyWitnessTree_ids).1,
    (copy_fidelity Nat copyWitnessTree copyWitnessTree_ids).2.1⟩

/-- C10: optimistic lookup has no false negatives: every key the radix-mode
`get` resolves to a value, the optimistic `get` resolves to the same value;
its inaccuracy is one-sided, as the C4 witness shows for non-stored keys. -/
theorem optimistic_no_false_negative (T : Type) (t : tree T) (k : List Char)
    (v : T) (h : tree.get true t k = .ok v) : tree.get false t k = .ok v := by
  rw [tree.get] at h
  cases hg : getAux true t.root k with
  | none =>
    rw [hg] at h
    cases h
  | some w =>
    rw [hg] at h
    have hv : w = v := by
      injection h
    subst hv
    rw [tree.get, getAux_optimistic_of_radix t.root k w hg]

/-- A one-key tree for instantiating the no-false-negative theorem. -/
def optWitnessTree : tree Nat := (tree.empty Nat).insert ['a', 'b'] 5

theorem optWitnessTree_eq :
    optWitnessTree =
      ⟨node.mk none [] [('a', node.mk (some 5) ['a', 'b'] [] 1)] 0,
        1, [(['a', 'b'], 1)], 2⟩ := by
  simp [optWitnessTree, tree.empty, tree.insert, insertAux,
    comparePrefixes, matchedCount, lookupChild, setChild, inc64, w64, tree.trackL]

theorem optWitnessTree_get :
    tree.get true optWitnessTree ['a', 'b'] = .ok 5 := by
  rw [tree.get, optWitnessTree_eq]
  simp [getAux, comparePrefixes, matchedCount, lookupChild]

theorem optimistic_no_false_negative_witness :
    tree.get false optWitnessTree ['a', 'b'] = .ok 5 :=
  optimistic_no_false_negative Nat optWitnessTree ['a', 'b'] 5 optWitnessTree_get

end aport
